import Mathlib

/-
Verification of the constrained N-back sequence generator and the trial
scoring rule of the `n-back-dual` repository, against its specification.

The Python sources are embedded shallowly:

* `src/nback/sequences.py` — the sequence generator. Every Python function
  is translated to a total Lean function. Python's `random` module is
  modelled by an explicit oracle (`Oracle`): a stream of `random.random()`
  draws (rationals), of `random.shuffle` results (arbitrary permutations)
  and of `random.choice` picks (indices), consumed through a step counter
  that is threaded through the computation exactly where the Python code
  calls the corresponding primitive. `Oracle.WF` states the contract the
  real module satisfies: draws lie in [0,1), shuffles permute their input,
  choice indices are in range.
* `src/nback_task.py` (`run_block`, response latching and scoring) — the
  per-trial latch/score logic, over an abstract stream of key polls.

Machine floats of the Python code (rates, the running `acc`) are modelled
as rationals; Python's banker's rounding `round` is `pyRound`. Python ints
that can go negative are `Int`; container indices and counts are `Nat`,
with truncated subtraction only where the Python expression is provably
non-negative or agrees with the Python value (noted inline).
-/

/-- Python's `round` on a rational value: round half to even. -/
def pyRound (q : ℚ) : ℤ :=
  let f : ℤ := Int.fdiv q.num q.den
  let r : ℚ := q - f
  if r < 1/2 then f else if 1/2 < r then f + 1 else if f % 2 = 0 then f else f + 1

/-- The random source: the k-th call of `random.random()`, `random.shuffle`
and `random.choice` (as the index it picks). One counter serves all three,
incremented once per primitive call, mirroring the single global Mersenne
Twister stream of Python's `random` module. -/
structure Oracle where
  rand : ℕ → ℚ
  shuffle : ℕ → List ℕ → List ℕ
  choice : ℕ → ℕ → ℕ

/-- The contract Python's `random` module gives: `random.random()` lies in
[0,1), `random.shuffle` permutes its list, `random.choice` picks a valid
index. -/
def Oracle.WF (o : Oracle) : Prop :=
  (∀ k, 0 ≤ o.rand k ∧ o.rand k < 1) ∧
  (∀ k l, (o.shuffle k l).Perm l) ∧
  (∀ k n, 0 < n → o.choice k n < n)

/-- A trivial deterministic oracle (draws 0, identity shuffles, index 0),
used to instantiate theorems at concrete inputs. -/
def oZero : Oracle := ⟨fun _ => 0, fun _ l => l, fun _ _ => 0⟩

theorem oZero_wf : oZero.WF :=
  ⟨fun _ => ⟨le_refl 0, by norm_num [oZero]⟩, fun _ l => List.Perm.refl l, fun _ _ h => h⟩

/-- `LETTERS` of sequences.py line 22: uppercase letters without I, O, Q. -/
def LETTERS : List Char :=
  "ABCDEFGHIJKLMNOPQRSTUVWXYZ".toList.filter (fun c => c ∉ ['I', 'O', 'Q'])

/-- `TrialPlan` of sequences.py lines 31-44. -/
structure TrialPlan where
  stimulus : Char
  is_target : ℕ
  lure_type : String
  iti_ms : ℤ
deriving DecidableEq, Repr

/-- A default plan for out-of-range `getD` reads in theorem statements. -/
def defaultPlan : TrialPlan := ⟨'A', 0, "none", 0⟩

/-- The keyword-only configuration of `generate_sequence` (lines 168-177). -/
structure SeqConfig where
  target_rate : ℚ
  lure_n_minus_1_rate : ℚ
  lure_n_plus_1_rate : ℚ
  max_consec_targets : ℕ
  max_identical_run : ℕ
  fixed_iti_ms : ℤ
  max_attempts : ℕ
  soft_balance_initial : Bool
  include_lures : Bool

/-- The per-letter frequency dict, keys in insertion order. -/
abbrev Freq := List (Char × ℕ)

/-- `freq.get(c, d)` on the dict. -/
def dictGet (m : Freq) (c : Char) (d : ℕ) : ℕ :=
  match List.find? (fun p => p.1 == c) m with
  | some p => p.2
  | none => d

/-- `freq[c] = v` on the dict: replace in place, or append a new key. -/
def dictSet (m : Freq) (c : Char) (v : ℕ) : Freq :=
  if List.any m (fun p => p.1 == c) then
    List.map (fun p : Char × ℕ => if p.1 == c then (c, v) else p) m
  else m ++ [(c, v)]

/-- `max(freq.values())` (callers guard for a non-empty dict). -/
def dictMaxValue (m : Freq) : ℕ :=
  List.foldl (fun (a : ℕ) (p : Char × ℕ) => max a p.2) 0 m

/-- The scanning loop of `_choose_letter` (lines 57-61): running float
accumulator `acc`, return the first candidate whose cumulative weight
reaches the draw. -/
def chooseScan : List (Char × ℤ) → ℚ → ℚ → Option Char
  | [], _, _ => none
  | (c, w) :: rest, r, acc =>
    let acc2 := acc + (w : ℚ)
    if r ≤ acc2 then some c else chooseScan rest r acc2

/-- `_choose_letter` of sequences.py lines 47-63. Returns the chosen letter
and the advanced oracle counter. -/
def _choose_letter (o : Oracle) (k : ℕ) (candidates : List Char) (freq : Freq)
    (soft_balance : Bool) : Char × ℕ :=
  let candidates := if candidates = [] then LETTERS else candidates
  if soft_balance then
    let max_count : ℕ := if freq = ([] : Freq) then 1 else dictMaxValue freq
    let weights : List ℤ :=
      List.map (fun c => (max_count : ℤ) - (dictGet freq c 0 : ℤ) + 1) candidates
    let weights := List.map (fun w => max w 1) weights
    let total : ℚ := ((List.sum weights : ℤ) : ℚ)
    let r : ℚ := o.rand k * total
    ((chooseScan (candidates.zip weights) r 0).getD (candidates.getLastD 'A'), k + 1)
  else
    (candidates.getD (o.choice k candidates.length) 'A', k + 1)

/-- The length of the run of `candidate` at the end of `seq` (the while loop
of `_valid_run_limit`, lines 70-74). -/
def trailRun (seq : List Char) (candidate : Char) : ℕ :=
  (seq.reverse.takeWhile (fun c => c == candidate)).length

/-- `_valid_run_limit` of sequences.py lines 66-75. `max_run` is a `Nat`:
the Python callers only pass `max_identical_run` and `max_identical_run - 1`
and a non-positive Python value and `0` both take the `max_run <= 0` branch,
so truncation at zero is faithful. -/
def _valid_run_limit (seq : List Char) (candidate : Char) (max_run : ℕ) : Bool :=
  if max_run ≤ 0 then true
  else 1 + trailRun seq candidate ≤ max_run

/-- Check 1 of `validate_sequence` (lines 87-88): a target flag among the
first `min n_back n_trials` trials. -/
def checkEarlyTarget (is_target_flags : List ℕ) (n_back n_trials : ℕ) : Bool :=
  List.any (List.range (min n_back n_trials)) (fun i => is_target_flags.getD i 0 == 1)

/-- Check 3 of `validate_sequence` (lines 93-96): an immediate repeat at
position `i ≥ 1` that is neither target nor lure. -/
def checkRepeat (seq : List Char) (is_target_flags : List ℕ) (lure_types : List String)
    (n_trials : ℕ) : Bool :=
  List.any (List.range' 1 (n_trials - 1))
    (fun i => seq.getD i ' ' == seq.getD (i - 1) ' ' &&
      is_target_flags.getD i 0 == 0 && lure_types.getD i "none" == "none")

/-- The per-position lure checks of `validate_sequence` (lines 97-116):
the first failing reason at position `i`, or `none`. -/
def lureFailAt (seq : List Char) (is_target_flags : List ℕ) (lure_types : List String)
    (n_back i : ℕ) : Option String :=
  let lt := lure_types.getD i "none"
  if lt = "n-1" then
    if ¬ (n_back - 1 ≤ i ∧ 0 < n_back - 1) then some "n-1 lure too early"
    else if is_target_flags.getD i 0 = 1 then some "lure double-counted as target"
    else if ¬ (seq.getD i ' ' = seq.getD (i - (n_back - 1)) ' ') then some "n-1 lure mismatch"
    else if n_back ≤ i ∧ seq.getD i ' ' = seq.getD (i - n_back) ' ' then some "n-1 lure equals target"
    else none
  else if lt = "n+1" then
    if ¬ (n_back + 1 ≤ i) then some "n+1 lure too early"
    else if is_target_flags.getD i 0 = 1 then some "lure double-counted as target"
    else if ¬ (seq.getD i ' ' = seq.getD (i - (n_back + 1)) ' ') then some "n+1 lure mismatch"
    else if n_back ≤ i ∧ seq.getD i ' ' = seq.getD (i - n_back) ' ' then some "n+1 lure equals target"
    else none
  else none

/-- The consecutive-target counter loop of `validate_sequence`
(lines 117-124), with its running counter made explicit. -/
def consecGo : List ℕ → ℕ → ℕ → Bool
  | [], _, _ => true
  | f :: fs, consec, m =>
    if f = 1 then
      if consec + 1 > m then false else consecGo fs (consec + 1) m
    else consecGo fs 0 m

/-- `validate_sequence` of sequences.py lines 78-125. The `tolerance`
parameter is reserved and unused, as in the source. -/
def validate_sequence (seq : List Char) (is_target_flags : List ℕ)
    (lure_types : List String) (n_back : ℕ) (target_rate : ℚ) (tolerance : ℕ)
    (max_consec_targets : ℕ) : Bool × String :=
  let _ := tolerance
  let n_trials := seq.length
  if checkEarlyTarget is_target_flags n_back n_trials then
    (false, "Target in first N trials")
  else
    let desired := pyRound (target_rate * (n_trials : ℚ))
    let total : ℤ := ((List.sum is_target_flags : ℕ) : ℤ)
    if ¬ (desired - 1 ≤ total ∧ total ≤ desired + 1) then
      (false, "Target count outside tolerance")
    else if 1 < n_back ∧ checkRepeat seq is_target_flags lure_types n_trials then
      (false, "Immediate repeat without target/lure")
    else
      match List.findSome? (lureFailAt seq is_target_flags lure_types n_back)
          (List.range n_trials) with
      | some reason => (false, reason)
      | none =>
        if ¬ consecGo is_target_flags 0 max_consec_targets then
          (false, "too many consecutive targets")
        else (true, "ok")

/-- The trailing chain count of `_sample_target_indices`'s run check
(lines 152-157): how many trailing elements of `chosen` (given reversed)
form the arithmetic chain i-1, i-2, ... . -/
def chainPrefix : List ℕ → ℕ → ℕ → ℕ
  | [], _, _ => 0
  | r :: rs, i, t => if r + t + 1 = i then chainPrefix rs i (t + 1) + 1 else 0

/-- One pass of `_sample_target_indices` over a shuffled position list
(lines 140-162). The early `break` once enough indices are chosen becomes
a no-op tail; the `allow = False` assignment for `max_consec_targets <= 0`
is dead in the source (the append still runs), and is dead here too. -/
def samplePass (positions : List ℕ) (desired : ℤ) (max_consec_targets : ℕ) : List ℕ :=
  List.foldl (fun (chosen : List ℕ) (i : ℕ) =>
    if ((chosen.length : ℕ) : ℤ) ≥ desired then chosen
    else if max_consec_targets = 0 then chosen ++ [i]
    else if max_consec_targets = 1 ∧ chosen ≠ [] ∧ i = chosen.getLastD 0 + 1 then chosen
    else if 1 + chainPrefix chosen.reverse i 0 > max_consec_targets then chosen
    else chosen ++ [i]) [] positions

/-- Stable insertion of a value into a sorted list (for `sorted(chosen)`). -/
def insertSorted (x : ℕ) : List ℕ → List ℕ
  | [] => [x]
  | y :: ys => if x ≤ y then x :: y :: ys else y :: insertSorted x ys

/-- Python's `sorted` on a list of naturals (insertion sort). -/
def pySorted (l : List ℕ) : List ℕ := l.foldr insertSorted []

/-- The retry loop of `_sample_target_indices` (lines 139-165), fuel =
`attempts`. Python's in-place `random.shuffle` re-shuffles the current
list, so the shuffled list is threaded into the next attempt. -/
def sampleLoop (o : Oracle) (positions : List ℕ) (desired : ℤ)
    (max_consec_targets : ℕ) (k : ℕ) : ℕ → Option (List ℕ) × ℕ
  | 0 => (none, k)
  | fuel + 1 =>
    let positions2 := o.shuffle k positions
    let chosen := samplePass positions2 desired max_consec_targets
    if (chosen.length : ℤ) = desired then
      (some (pySorted chosen), k + 1)
    else sampleLoop o positions2 desired max_consec_targets (k + 1) fuel

/-- `_sample_target_indices` of sequences.py lines 128-165. -/
def _sample_target_indices (o : Oracle) (n_back n_trials : ℕ) (desired : ℤ)
    (max_consec_targets : ℕ) (k : ℕ) : Option (List ℕ) × ℕ :=
  if desired ≤ 0 then (some [], k)
  else sampleLoop o (List.range' n_back (n_trials - n_back)) desired max_consec_targets k 200

/-- The generation state threaded through the fill loop of
`generate_sequence` (lines 198-269). -/
structure GenState where
  seq : List Char
  is_target_flags : List ℕ
  lure_types : List String
  freqs : Freq
  k : ℕ

/-- The n-1 lure attempt (lines 225-232): returns the lure letter if one is
placed, with the counter advanced when `random.random()` was consumed (the
guard conjuncts short-circuit before the draw). -/
def tryLureNm1 (o : Oracle) (n_back : ℕ) (cfg : SeqConfig) (seq : List Char)
    (k i : ℕ) : Option Char × ℕ :=
  if 0 < n_back - 1 ∧ n_back - 1 ≤ i then
    if o.rand k < cfg.lure_n_minus_1_rate then
      let letter_nm1 := seq.getD (i - (n_back - 1)) 'A'
      let letter_n : Option Char := if n_back ≤ i then some (seq.getD (i - n_back) 'A') else none
      if (letter_n = none ∨ some letter_nm1 ≠ letter_n) ∧
          _valid_run_limit seq letter_nm1 cfg.max_identical_run then
        (some letter_nm1, k + 1)
      else (none, k + 1)
    else (none, k + 1)
  else (none, k)

/-- The n+1 lure attempt (lines 234-241), same conventions. -/
def tryLureNp1 (o : Oracle) (n_back : ℕ) (cfg : SeqConfig) (seq : List Char)
    (k i : ℕ) : Option Char × ℕ :=
  if n_back + 1 ≤ i then
    if o.rand k < cfg.lure_n_plus_1_rate then
      let letter_np1 := seq.getD (i - (n_back + 1)) 'A'
      let letter_n : Option Char := if n_back ≤ i then some (seq.getD (i - n_back) 'A') else none
      if (letter_n = none ∨ some letter_np1 ≠ letter_n) ∧
          _valid_run_limit seq letter_np1 cfg.max_identical_run then
        (some letter_np1, k + 1)
      else (none, k + 1)
    else (none, k + 1)
  else (none, k)

/-- The non-target branch of the fill loop (lines 222-252): try lures, else
choose a filler letter. Returns (letter, planned lure type, counter). -/
def fillNonTarget (o : Oracle) (n_back : ℕ) (cfg : SeqConfig) (seq : List Char)
    (freqs : Freq) (k i : ℕ) : Char × String × ℕ :=
  let step1 : Option Char × ℕ :=
    if cfg.include_lures then tryLureNm1 o n_back cfg seq k i else (none, k)
  match h1 : step1.1 with
  | some letter => (letter, "n-1", step1.2)
  | none =>
    let step2 : Option Char × ℕ :=
      if cfg.include_lures then tryLureNp1 o n_back cfg seq step1.2 i else (none, step1.2)
    match h2 : step2.1 with
    | some letter => (letter, "n+1", step2.2)
    | none =>
      let candidates := LETTERS
      let candidates :=
        if n_back ≤ i then candidates.filter (fun c => c ≠ seq.getD (i - n_back) 'A')
        else candidates
      let candidates :=
        if seq = [] then candidates
        else
          let last := seq.getLastD 'A'
          if last ∈ candidates ∧ ¬ _valid_run_limit seq last (cfg.max_identical_run - 1) then
            candidates.filter (fun c => c ≠ last)
          else candidates
      let chosen := _choose_letter o step2.2 candidates freqs cfg.soft_balance_initial
      (chosen.1, "none", chosen.2)

/-- The final run-limit adjustment (lines 256-266): if the selected letter
violates the identical-run cap it is re-selected among run-safe candidates
(this applies to target trials too — nothing exempts them in the source). -/
def finalAdjust (o : Oracle) (n_back : ℕ) (cfg : SeqConfig) (seq : List Char)
    (freqs : Freq) (k i : ℕ) (letter : Char) : Char × ℕ :=
  if _valid_run_limit seq letter cfg.max_identical_run then (letter, k)
  else
    let cands := LETTERS.filter (fun c => _valid_run_limit seq c cfg.max_identical_run)
    let cands :=
      if n_back ≤ i then cands.filter (fun c => c ≠ seq.getD (i - n_back) 'A') else cands
    let cands :=
      if seq = [] then cands
      else
        let last := seq.getLastD 'A'
        if last ∈ cands ∧ ¬ _valid_run_limit seq last (cfg.max_identical_run - 1) then
          cands.filter (fun c => c ≠ last)
        else cands
    _choose_letter o k cands freqs cfg.soft_balance_initial

/-- The branch selection of the fill loop at position `i` (lines 211-254):
(letter before the final adjustment, target flag, lure type, counter). -/
def fillPick (o : Oracle) (n_back : ℕ) (cfg : SeqConfig) (target_set : List ℕ)
    (st : GenState) (i : ℕ) : Char × ℕ × String × ℕ :=
  if i ∈ target_set ∧ n_back ≤ i then
    (st.seq.getD (i - n_back) 'A', 1, "none", st.k)
  else
    let nt := fillNonTarget o n_back cfg st.seq st.freqs st.k i
    (nt.1, 0, nt.2.1, nt.2.2)

/-- One iteration of the fill loop (lines 208-269) at position `i`. -/
def fillStep (o : Oracle) (n_back : ℕ) (cfg : SeqConfig) (target_set : List ℕ)
    (st : GenState) (i : ℕ) : GenState :=
  let pick := fillPick o n_back cfg target_set st i
  let adj := finalAdjust o n_back cfg st.seq st.freqs pick.2.2.2 i pick.1
  { seq := st.seq ++ [adj.1]
    is_target_flags := st.is_target_flags ++ [pick.2.1]
    lure_types := st.lure_types ++ [pick.2.2.1]
    freqs := dictSet st.freqs adj.1 (dictGet st.freqs adj.1 0 + 1)
    k := adj.2 }

/-- `{c: 0 for c in LETTERS}` (line 201). -/
def initFreqs : Freq := LETTERS.map (fun c => (c, 0))

/-- The plan packaging loop (lines 281-289 and 349-356): `plans[i]` reads
component `i` of each list. -/
def mkPlans (seq : List Char) (is_target_flags : List ℕ) (lure_types : List String)
    (iti : ℤ) (n_trials : ℕ) : List TrialPlan :=
  (List.range n_trials).map (fun i =>
    ⟨seq.getD i 'A', is_target_flags.getD i 0, lure_types.getD i "none", iti⟩)

/-- The whole sequential fill (lines 208-269) from the empty state. -/
def fillAll (o : Oracle) (n_back : ℕ) (cfg : SeqConfig) (target_set : List ℕ)
    (k n_trials : ℕ) : GenState :=
  List.foldl (fillStep o n_back cfg target_set) ⟨[], [], [], initFreqs, k⟩
    (List.range n_trials)

/-- One attempt of the primary loop of `generate_sequence` (lines 198-290):
sample target indices, fill, validate, package. -/
def primaryAttempt (o : Oracle) (n_back n_trials : ℕ) (cfg : SeqConfig)
    (desired : ℤ) (k : ℕ) : Option (List TrialPlan) × ℕ :=
  let s := _sample_target_indices o n_back n_trials desired cfg.max_consec_targets k
  match s.1 with
  | none => (none, s.2)
  | some target_indices =>
    let st := fillAll o n_back cfg target_indices s.2 n_trials
    if (validate_sequence st.seq st.is_target_flags st.lure_types n_back
        cfg.target_rate 1 cfg.max_consec_targets).1 then
      (some (mkPlans st.seq st.is_target_flags st.lure_types cfg.fixed_iti_ms n_trials), st.k)
    else (none, st.k)

/-- The `for _attempt in range(1, max_attempts + 1)` retry loop (line 197). -/
def primaryLoop (o : Oracle) (n_back n_trials : ℕ) (cfg : SeqConfig)
    (desired : ℤ) (k : ℕ) : ℕ → Option (List TrialPlan) × ℕ
  | 0 => (none, k)
  | fuel + 1 =>
    let a := primaryAttempt o n_back n_trials cfg desired k
    match a.1 with
    | some plans => (some plans, a.2)
    | none => primaryLoop o n_back n_trials cfg desired a.2 fuel

/-- The body of the fallback's scatter loop (lines 303-313) at candidate
index `i`. -/
def fbPassStep (desired : ℤ) (max_consec_targets n_trials : ℕ)
    (fl : List ℕ) (i : ℕ) : List ℕ :=
  if ((List.sum fl : ℕ) : ℤ) ≥ desired then fl
  else if max_consec_targets = 0 then fl
  else
    let left_run : ℕ := if 1 ≤ i ∧ fl.getD (i - 1) 0 = 1 then 1 else 0
    let right_run : ℕ := if i + 1 < n_trials ∧ fl.getD (i + 1) 0 = 1 then 1 else 0
    if max_consec_targets ≤ left_run + right_run then fl
    else fl.set i 1

/-- One inner pass of the fallback's while loop (lines 303-313): scatter
targets over the shuffled candidates, enforcing only the local
immediate-neighbour check. The `break` once enough targets are placed
becomes a no-op tail. -/
def fbPass (candidates : List ℕ) (desired : ℤ) (max_consec_targets n_trials : ℕ)
    (flags : List ℕ) : List ℕ :=
  List.foldl (fbPassStep desired max_consec_targets n_trials) flags candidates

/-- The fallback's `while ... and attempts < 50` loop (lines 298-313), fuel
= 50; in-place `random.shuffle` means the shuffled candidate list is
threaded into the next round. -/
def fbWhile (o : Oracle) (desired : ℤ) (max_consec_targets n_trials : ℕ)
    (flags : List ℕ) (candidates : List ℕ) (k : ℕ) : ℕ → List ℕ × ℕ
  | 0 => (flags, k)
  | fuel + 1 =>
    if ((List.sum flags : ℕ) : ℤ) < desired then
      let candidates2 := o.shuffle k candidates
      let flags2 := fbPass candidates2 desired max_consec_targets n_trials flags
      fbWhile o desired max_consec_targets n_trials flags2 candidates2 (k + 1) fuel
    else (flags, k)

/-- The body of the fallback's final strictly-non-adjacent pass
(lines 322-329) at pool index `i`: state = (flags, needed). -/
def fbFinalStep (n_trials : ℕ) (st : List ℕ × ℤ) (i : ℕ) : List ℕ × ℤ :=
  if st.2 ≤ 0 then st
  else
    let left_run : ℕ := if 1 ≤ i ∧ st.1.getD (i - 1) 0 = 1 then 1 else 0
    let right_run : ℕ := if i + 1 < n_trials ∧ st.1.getD (i + 1) 0 = 1 then 1 else 0
    if left_run + right_run = 0 then (st.1.set i 1, st.2 - 1) else st

/-- The fallback's final strictly-non-adjacent pass (lines 316-329). -/
def fbFinal (o : Oracle) (n_back n_trials : ℕ) (desired : ℤ) (flags : List ℕ)
    (k : ℕ) : List ℕ × ℕ :=
  if ((List.sum flags : ℕ) : ℤ) < max 0 (desired - 1) then
    let needed : ℤ := desired - ((List.sum flags : ℕ) : ℤ)
    if 0 < needed then
      let pool := (List.range' n_back (n_trials - n_back)).filter
        (fun i => flags.getD i 0 == 0)
      let pool := o.shuffle k pool
      let st := List.foldl (fbFinalStep n_trials) (flags, needed) pool
      (st.1, k + 1)
    else (flags, k)
  else (flags, k)

/-- The candidate list of the fallback's non-target branch (lines 339-344):
the alphabet minus the N-back symbol and minus the preceding symbol. -/
def fbCandidates (n_back : ℕ) (seq : List Char) (i : ℕ) : List Char :=
  let candidates := LETTERS
  let candidates :=
    if n_back ≤ i then candidates.filter (fun c => c ≠ seq.getD (i - n_back) 'A')
    else candidates
  if 1 ≤ i then candidates.filter (fun c => c ≠ seq.getD (i - 1) 'A')
  else candidates

def fbLetterStep (o : Oracle) (n_back : ℕ) (flags : List ℕ)
    (st : List Char × List String × ℕ) (i : ℕ) : List Char × List String × ℕ :=
  let seq := st.1
  let lure_types := st.2.1
  let k := st.2.2
  if flags.getD i 0 = 1 ∧ n_back ≤ i then
    (seq ++ [seq.getD (i - n_back) 'A'], lure_types ++ ["none"], k)
  else
    let candidates := fbCandidates n_back seq i
    if candidates = [] then
      (seq ++ [LETTERS.headD 'A'], lure_types ++ ["none"], k)
    else
      (seq ++ [candidates.getD (o.choice k candidates.length) 'A'],
       lure_types ++ ["none"], k + 1)

def fbLetters (o : Oracle) (n_back n_trials : ℕ) (flags : List ℕ) (k : ℕ) :
    List Char × List String × ℕ :=
  List.foldl (fbLetterStep o n_back flags) ([], [], k) (List.range n_trials)

/-- The emergency fallback of `generate_sequence` (lines 292-357). -/
def fallbackSeq (o : Oracle) (n_back n_trials : ℕ) (cfg : SeqConfig)
    (desired : ℤ) (k : ℕ) : List TrialPlan :=
  let flags0 : List ℕ := List.replicate n_trials 0
  let candidates0 := List.range' n_back (n_trials - n_back)
  let w := fbWhile o desired cfg.max_consec_targets n_trials flags0 candidates0 k 50
  let f := fbFinal o n_back n_trials desired w.1 w.2
  let lt := fbLetters o n_back n_trials f.1 f.2
  (List.range n_trials).map (fun i =>
    ⟨lt.1.getD i 'A', if f.1.getD i 0 = 1 then 1 else 0,
     lt.2.1.getD i "none", cfg.fixed_iti_ms⟩)

/-- `generate_sequence` of sequences.py lines 168-357: the primary retry
loop, then the emergency fallback. -/
def generate_sequence (o : Oracle) (n_back n_trials : ℕ) (cfg : SeqConfig) :
    List TrialPlan :=
  let desired := pyRound (cfg.target_rate * (n_trials : ℚ))
  match primaryLoop o n_back n_trials cfg desired 0 cfg.max_attempts with
  | (some plans, _) => plans
  | (none, k) => fallbackSeq o n_back n_trials cfg desired k

/-- The number of plans flagged as targets. -/
def targetCount (plans : List TrialPlan) : ℕ :=
  plans.countP (fun p => p.is_target == 1)

/-- "the list `flags` contains somewhere a block of `m` consecutive entries
equal to 1": the shape of a run of `m` consecutive targets. -/
def hasTargetRun (flags : List ℕ) (m : ℕ) : Prop :=
  ∃ s t : List ℕ, flags = s ++ List.replicate m 1 ++ t

/-
Trial timing engine (src/nback_task.py, `run_block`): response latching and
scoring. `getKeys(keyList=[KEY_RESPONSE, KEY_QUIT])` only ever returns the
response key or the quit key, modelled by `Key`. A trial's input is the
stream of key batches the successive polls of the while loop (lines
542-576) return before SOA elapses.
-/

/-- A key the response loop can see (the `keyList` filter admits only the
response key and the quit key). -/
inductive Key where
  | response
  | quit
deriving DecidableEq, Repr

/-- The latch logic of the response loop (lines 546-576): while no response
is latched, the first key of a non-empty poll batch is examined — quit
aborts the block, anything else is latched; once latched (and on quit never
reached) all later batches are ignored (`if keys and not got_response`).
`none` = aborted by quit; `some r` = trial completed with latched key `r`. -/
def latchResponse : List (List Key) → Option (Option Key)
  | [] => some none
  | [] :: rest => latchResponse rest
  | (k :: _) :: _ => if k = Key.quit then none else some (some k)

/-- The scoring rule of `run_block` (lines 590-592): `is_space` is whether
the latched key is the response key; correct iff target-and-press or
nontarget-and-silence. -/
def scoreTrial (is_target : ℕ) (resp_key : Option Key) : ℕ :=
  let is_space := resp_key = some Key.response
  if (is_target = 1 ∧ is_space) ∨ (is_target = 0 ∧ ¬ is_space) then 1 else 0

/-- What the engine records per completed trial (the fields the claims are
about). -/
structure TrialRecord where
  resp_key : Option Key
  correct : ℕ
deriving DecidableEq, Repr

/-- One trial of `run_block`: latch a response from the poll stream, then
score. `none` when the quit key aborted the block mid-trial. -/
def run_trial (plan : TrialPlan) (polls : List (List Key)) : Option TrialRecord :=
  match latchResponse polls with
  | none => none
  | some r => some ⟨r, scoreTrial plan.is_target r⟩

/-
Claim C7's letter chooser, written from the words of the specification
("computes weight w(c) = max(maxFreq - freq(c) + 1, 1) for each candidate
(maxFreq = highest frequency among candidates, or 1 if empty), draws
uniformly over the cumulative weight sum, returns the first candidate whose
cumulative weight reaches/exceeds the draw"), to compare with the source's
`_choose_letter`. The draw is `u * total` for a uniform `u` in [0,1).
-/

/-- Cumulative sums of a weight list: entry `j` is `w 0 + ... + w j`. -/
def cumWeights (ws : List ℤ) : List ℤ := (ws.scanl (· + ·) 0).tail

/-- The chooser as claim C7 words it: `maxFreq` is the highest frequency
among the CANDIDATES (or 1 if there are none). -/
def chooseLetterClaim (u : ℚ) (cands : List Char) (freq : Freq) : Option Char :=
  let maxFreq : ℕ :=
    if cands = [] then 1
    else (cands.map (fun c => dictGet freq c 0)).foldl max 0
  let weights := cands.map (fun c => max ((maxFreq : ℤ) - (dictGet freq c 0 : ℤ) + 1) 1)
  let r : ℚ := u * ((List.sum weights : ℤ) : ℚ)
  ((cands.zip (cumWeights weights)).find? (fun p => r ≤ ((p.2 : ℤ) : ℚ))).map Prod.fst

/-- The chooser with the amendment the source forces: `maxFreq` is the
highest value in the whole frequency map (or 1 if the map is empty), not
the highest among the candidates. -/
def chooseLetterAmended (u : ℚ) (cands : List Char) (freq : Freq) : Option Char :=
  let maxFreq : ℕ := if freq = ([] : Freq) then 1 else dictMaxValue freq
  let weights := cands.map (fun c => max ((maxFreq : ℤ) - (dictGet freq c 0 : ℤ) + 1) 1)
  let r : ℚ := u * ((List.sum weights : ℤ) : ℚ)
  ((cands.zip (cumWeights weights)).find? (fun p => r ≤ ((p.2 : ℤ) : ℚ))).map Prod.fst

/-
Concrete configurations and oracles used to instantiate the theorems.
Field order of `SeqConfig`: target_rate, lure_n_minus_1_rate,
lure_n_plus_1_rate, max_consec_targets, max_identical_run, fixed_iti_ms,
max_attempts, soft_balance_initial, include_lures.
-/

/-- Rate ½, caps 1, one attempt, no lures: `generate_sequence oZero 1 2`
succeeds on the primary path but the final run-limit adjustment replaces
the target's letter. -/
def c1cfg : SeqConfig := ⟨1/2, 0, 0, 1, 1, 500, 1, false, false⟩

/-- Rate 1 with `max_attempts = 0`: the fallback must place 3 targets in 3
trials but the neighbour rule stops it after one. -/
def c2cfg : SeqConfig := ⟨1, 0, 0, 1, 1, 500, 0, false, false⟩

/-- Rate ¾, consecutive-target cap 2, `max_attempts = 0`: the fallback's
local neighbour check lets a run of 3 targets through. -/
def c3cfg : SeqConfig := ⟨3/4, 0, 0, 2, 1, 500, 0, false, false⟩

/-- Lure rates 1 with lures enabled: a 2-back sequence of 2 trials places
an n-1 lure at position 1. -/
def c5cfg : SeqConfig := ⟨0, 1, 1, 1, 2, 500, 1, false, true⟩

/-- A minimal valid configuration (rate 0, caps 1 and 2, one attempt). -/
def c10cfg : SeqConfig := ⟨0, 0, 0, 1, 2, 500, 1, false, false⟩

/-- An oracle whose uniform draws are all 3/5 (a legal `random.random()`
value), exhibiting the weight divergence of the soft-balance chooser. -/
def oC7 : Oracle := ⟨fun _ => 3/5, fun _ l => l, fun _ _ => 0⟩

/-
List utilities used throughout the development.
-/

theorem getD_set (l : List ℕ) (i j v d : ℕ) :
    (l.set i v).getD j d = if i = j ∧ i < l.length then v else l.getD j d := by
  induction l generalizing i j with
  | nil => simp
  | cons a t ih =>
    cases i with
    | zero => cases j <;> simp [List.set]
    | succ i2 =>
      cases j with
      | zero => simp [List.set]
      | succ j2 =>
        simp only [List.set, List.getD_cons_succ, List.length_cons, ih]
        congr 1
        simp [Nat.succ_lt_succ_iff]

theorem getD_append_right_len (s r : List ℕ) (j d : ℕ) :
    (s ++ r).getD (s.length + j) d = r.getD j d := by
  induction s with
  | nil => simp
  | cons a t ih => simpa [Nat.succ_add] using ih

theorem map_getD_range (l : List ℕ) (d : ℕ) (n : ℕ) (h : l.length = n) :
    (List.range n).map (fun i => l.getD i d) = l := by
  subst h
  apply List.ext_getElem
  · simp
  · intro i h1 h2
    simp [List.getD_eq_getElem?_getD, List.getElem?_eq_getElem h2]

theorem getD_range_map {α : Type} (f : ℕ → α) (n j : ℕ) (d : α) (h : j < n) :
    ((List.range n).map f).getD j d = f j := by
  rw [List.getD_eq_getElem?_getD, List.getElem?_map]
  simp [List.getElem?_range h]

theorem getLastD_mem {α : Type} (l : List α) (d : α) (h : l ≠ []) : l.getLastD d ∈ l := by
  induction l with
  | nil => simp at h
  | cons a t ih =>
    cases t with
    | nil => simp [List.getLastD]
    | cons b u =>
      simp only [List.getLastD]
      exact List.mem_cons_of_mem a (ih (by simp))

theorem getD_mem_or {α : Type} (l : List α) (n : ℕ) (d : α) :
    l.getD n d ∈ l ∨ l.getD n d = d := by
  by_cases h : n < l.length
  · left
    rw [List.getD_eq_getElem l d h]
    exact l.getElem_mem h
  · right
    rw [List.getD_eq_getElem?_getD, List.getElem?_eq_none (by omega)]
    rfl

theorem countOnes_le_sum (l : List ℕ) : l.countP (fun x => x == 1) ≤ l.sum := by
  induction l with
  | nil => simp
  | cons a t ih =>
    rw [List.countP_cons, List.sum_cons]
    by_cases h : a = 1 <;> simp [h] <;> omega

theorem sum_set_le (l : List ℕ) (i : ℕ) : (l.set i 1).sum ≤ l.sum + 1 := by
  induction l generalizing i with
  | nil => simp
  | cons a t ih =>
    cases i with
    | zero => simp [List.set]; omega
    | succ i2 =>
      simp only [List.set, List.sum_cons]
      have := ih i2
      omega

theorem insertSorted_mem (x y : ℕ) (l : List ℕ) :
    y ∈ insertSorted x l ↔ y = x ∨ y ∈ l := by
  induction l with
  | nil => simp [insertSorted]
  | cons a t ih =>
    by_cases h : x ≤ a
    · simp [insertSorted, h]
    · simp only [insertSorted, if_neg h, List.mem_cons, ih]
      tauto

theorem pySorted_mem (x : ℕ) (l : List ℕ) : x ∈ pySorted l ↔ x ∈ l := by
  induction l with
  | nil => simp [pySorted]
  | cons a t ih =>
    simp only [pySorted, List.foldr_cons, insertSorted_mem, List.mem_cons]
    rw [show List.foldr insertSorted [] t = pySorted t from rfl, ih]

/-
Extraction lemmas for `validate_sequence`: what a passing validation
guarantees.
-/

theorem validate_fst (seq : List Char) (flags : List ℕ) (lures : List String)
    (nb : ℕ) (rate : ℚ) (tol mc : ℕ) :
    (validate_sequence seq flags lures nb rate tol mc).1 =
      (!(checkEarlyTarget flags nb seq.length) &&
       decide (pyRound (rate * (seq.length : ℚ)) - 1 ≤ ((flags.sum : ℕ) : ℤ) ∧
         ((flags.sum : ℕ) : ℤ) ≤ pyRound (rate * (seq.length : ℚ)) + 1) &&
       !(decide (1 < nb) && checkRepeat seq flags lures seq.length) &&
       (List.findSome? (lureFailAt seq flags lures nb) (List.range seq.length)).isNone &&
       consecGo flags 0 mc) := by
  unfold validate_sequence
  dsimp only
  cases hfind : List.findSome? (lureFailAt seq flags lures nb) (List.range seq.length) with
  | some reason => split_ifs <;> simp_all
  | none =>
    split_ifs <;> simp_all <;> rcases Nat.lt_or_ge 1 nb with hnb | hnb <;> simp_all

theorem validate_ok_parts (seq : List Char) (flags : List ℕ) (lures : List String)
    (nb : ℕ) (rate : ℚ) (tol mc : ℕ)
    (h : (validate_sequence seq flags lures nb rate tol mc).1 = true) :
    checkEarlyTarget flags nb seq.length = false ∧
    (pyRound (rate * (seq.length : ℚ)) - 1 ≤ ((flags.sum : ℕ) : ℤ) ∧
      ((flags.sum : ℕ) : ℤ) ≤ pyRound (rate * (seq.length : ℚ)) + 1) ∧
    (∀ i, i ∈ List.range seq.length → lureFailAt seq flags lures nb i = none) ∧
    consecGo flags 0 mc = true := by
  rw [validate_fst] at h
  simp only [Bool.and_eq_true, Bool.not_eq_true', decide_eq_true_eq,
    Option.isNone_iff_eq_none] at h
  obtain ⟨⟨⟨⟨h1, h2⟩, h3⟩, h4⟩, h5⟩ := h
  exact ⟨h1, h2, fun i hi => List.findSome?_eq_none_iff.mp h4 _ hi, h5⟩

/-
The consecutive-target counter: a passing `consecGo` excludes any block of
`m + 1` consecutive 1-flags.
-/

theorem consecGo_cons_one (l : List ℕ) (c m : ℕ) :
    consecGo (1 :: l) c m = if c + 1 > m then false else consecGo l (c + 1) m := by
  simp [consecGo]

theorem consecGo_cons_ne (f : ℕ) (l : List ℕ) (c m : ℕ) (hf : f ≠ 1) :
    consecGo (f :: l) c m = consecGo l 0 m := by
  simp [consecGo, hf]

theorem consecGo_replicate (k : ℕ) (t : List ℕ) (c m : ℕ) (hc : c ≤ m)
    (h : consecGo (List.replicate k 1 ++ t) c m = true) : c + k ≤ m := by
  induction k generalizing c with
  | zero => simpa using hc
  | succ k2 ih =>
    rw [List.replicate_succ, List.cons_append, consecGo_cons_one] at h
    by_cases hgt : c + 1 > m
    · rw [if_pos hgt] at h
      exact absurd h (by simp)
    · rw [if_neg hgt] at h
      have := ih (c + 1) (by omega) h
      omega

theorem consecGo_suffix (s t : List ℕ) (c m : ℕ) (hc : c ≤ m)
    (h : consecGo (s ++ t) c m = true) : ∃ c2, c2 ≤ m ∧ consecGo t c2 m = true := by
  induction s generalizing c with
  | nil => exact ⟨c, hc, h⟩
  | cons f s2 ih =>
    rw [List.cons_append] at h
    by_cases hf : f = 1
    · subst hf
      rw [consecGo_cons_one] at h
      by_cases hgt : c + 1 > m
      · rw [if_pos hgt] at h
        exact absurd h (by simp)
      · rw [if_neg hgt] at h
        exact ih (c + 1) (by omega) h
    · rw [consecGo_cons_ne f _ c m hf] at h
      exact ih 0 (Nat.zero_le m) h

theorem consecGo_no_run (flags : List ℕ) (m : ℕ) (h : consecGo flags 0 m = true) :
    ¬ hasTargetRun flags (m + 1) := by
  rintro ⟨s, t, heq⟩
  rw [heq, List.append_assoc] at h
  obtain ⟨c2, hc2, h2⟩ := consecGo_suffix s _ 0 m (Nat.zero_le m) h
  have := consecGo_replicate (m + 1) t c2 m hc2 h2
  omega

/-
Relating plan lists to the underlying flag lists.
-/

theorem mkPlans_length (seq : List Char) (flags : List ℕ) (lures : List String)
    (iti : ℤ) (n : ℕ) : (mkPlans seq flags lures iti n).length = n := by
  simp [mkPlans]

theorem mkPlans_map_is_target (seq : List Char) (flags : List ℕ) (lures : List String)
    (iti : ℤ) (n : ℕ) (hf : flags.length = n) :
    (mkPlans seq flags lures iti n).map TrialPlan.is_target = flags := by
  unfold mkPlans
  rw [List.map_map]
  exact map_getD_range flags 0 n hf

theorem mkPlans_getD (seq : List Char) (flags : List ℕ) (lures : List String)
    (iti : ℤ) (n i : ℕ) (h : i < n) :
    (mkPlans seq flags lures iti n).getD i defaultPlan =
      ⟨seq.getD i 'A', flags.getD i 0, lures.getD i "none", iti⟩ :=
  getD_range_map _ n i defaultPlan h

theorem targetCount_eq_countP_flags (seq : List Char) (flags : List ℕ)
    (lures : List String) (iti : ℤ) (n : ℕ) (hf : flags.length = n) :
    targetCount (mkPlans seq flags lures iti n) = flags.countP (fun x => x == 1) := by
  unfold targetCount
  have h1 : (mkPlans seq flags lures iti n).countP (fun p => p.is_target == 1) =
      ((mkPlans seq flags lures iti n).map TrialPlan.is_target).countP (fun x => x == 1) := by
    rw [List.countP_map]
    rfl
  rw [h1, mkPlans_map_is_target seq flags lures iti n hf]

theorem countP_ones_eq_sum (flags : List ℕ) (h : ∀ f ∈ flags, f = 0 ∨ f = 1) :
    flags.countP (fun x => x == 1) = flags.sum := by
  induction flags with
  | nil => simp
  | cons a t ih =>
    rw [List.countP_cons, List.sum_cons]
    rcases h a (by simp) with ha | ha <;>
      simp [ha, ih (fun f hf => h f (List.mem_cons_of_mem a hf))] <;> omega

/-
Membership invariants: every letter the generator ever appends comes from
`LETTERS`.
-/

theorem letters_ne_nil : LETTERS ≠ [] := by decide

theorem a_mem_letters : 'A' ∈ LETTERS := by decide

theorem chooseScan_mem (l : List (Char × ℤ)) (r acc : ℚ) (c : Char)
    (h : chooseScan l r acc = some c) : c ∈ l.map Prod.fst := by
  induction l generalizing acc with
  | nil => simp [chooseScan] at h
  | cons p rest ih =>
    obtain ⟨pc, pw⟩ := p
    simp only [chooseScan] at h
    split_ifs at h with hle
    · simp only [Option.some_inj] at h
      simp [h]
    · exact List.mem_cons_of_mem _ (ih _ h)

theorem seq_getD_mem (seq : List Char) (n : ℕ)
    (hseq : ∀ c ∈ seq, c ∈ LETTERS) : seq.getD n 'A' ∈ LETTERS := by
  rcases getD_mem_or seq n 'A' with h | h
  · exact hseq _ h
  · rw [h]; exact a_mem_letters

theorem option_getD_mem {α : Type} (ob : Option α) (d : α) (l : List α)
    (hsome : ∀ c, ob = some c → c ∈ l) (hd : d ∈ l) : ob.getD d ∈ l := by
  cases ob with
  | none => simpa using hd
  | some c => simpa using hsome c rfl

theorem _choose_letter_mem (o : Oracle) (k : ℕ) (cands : List Char) (freq : Freq)
    (sb : Bool) (hch : ∀ k n, 0 < n → o.choice k n < n)
    (hsub : ∀ c ∈ cands, c ∈ LETTERS) :
    (_choose_letter o k cands freq sb).1 ∈ LETTERS := by
  unfold _choose_letter
  dsimp only
  have hsub2 : ∀ c ∈ (if cands = [] then LETTERS else cands), c ∈ LETTERS := by
    split_ifs with he
    · intro c hc; exact hc
    · exact hsub
  have hne : (if cands = [] then LETTERS else cands) ≠ [] := by
    split_ifs with he
    · exact letters_ne_nil
    · exact he
  set cands2 := if cands = [] then LETTERS else cands with hc2
  cases sb with
  | false =>
    simp only [Bool.false_eq_true, if_false]
    have hlen : 0 < cands2.length := List.length_pos.mpr hne
    have hidx := hch k cands2.length hlen
    rw [List.getD_eq_getElem cands2 'A' hidx]
    exact hsub2 _ (cands2.getElem_mem hidx)
  | true =>
    simp only [if_true]
    apply option_getD_mem
    · intro c hc
      have hmem := chooseScan_mem _ _ _ _ hc
      rw [List.map_fst_zip] at hmem
      · exact hsub2 _ hmem
      · simp
    · exact hsub2 _ (getLastD_mem cands2 'A' hne)

theorem tryLureNm1_some_mem (o : Oracle) (nb : ℕ) (cfg : SeqConfig) (seq : List Char)
    (k i : ℕ) (c : Char) (hseq : ∀ x ∈ seq, x ∈ LETTERS)
    (h : (tryLureNm1 o nb cfg seq k i).1 = some c) : c ∈ LETTERS := by
  unfold tryLureNm1 at h
  dsimp only at h
  split_ifs at h with h1 h2 h3 <;> simp only [Option.some_inj] at h
  all_goals (rw [← h]; exact seq_getD_mem seq _ hseq)

theorem tryLureNp1_some_mem (o : Oracle) (nb : ℕ) (cfg : SeqConfig) (seq : List Char)
    (k i : ℕ) (c : Char) (hseq : ∀ x ∈ seq, x ∈ LETTERS)
    (h : (tryLureNp1 o nb cfg seq k i).1 = some c) : c ∈ LETTERS := by
  unfold tryLureNp1 at h
  dsimp only at h
  split_ifs at h with h1 h2 h3 <;> simp only [Option.some_inj] at h
  all_goals (rw [← h]; exact seq_getD_mem seq _ hseq)

theorem fillNonTarget_mem (o : Oracle) (nb : ℕ) (cfg : SeqConfig) (seq : List Char)
    (freqs : Freq) (k i : ℕ) (hch : ∀ k n, 0 < n → o.choice k n < n)
    (hseq : ∀ x ∈ seq, x ∈ LETTERS) :
    (fillNonTarget o nb cfg seq freqs k i).1 ∈ LETTERS := by
  unfold fillNonTarget
  dsimp only
  split
  · rename_i letter h1
    by_cases hl : cfg.include_lures
    · rw [if_pos hl] at h1
      exact tryLureNm1_some_mem o nb cfg seq k i letter hseq h1
    · rw [if_neg hl] at h1
      simp at h1
  · split
    · rename_i h1 letter h2
      by_cases hl : cfg.include_lures
      · rw [if_pos hl] at h2
        exact tryLureNp1_some_mem o nb cfg seq _ i letter hseq h2
      · rw [if_neg hl] at h2
        simp at h2
    · apply _choose_letter_mem _ _ _ _ _ hch
      intro c hc
      split_ifs at hc <;>
        first
          | exact hseq c hc
          | (first
              | exact hseq c (List.mem_of_mem_filter hc)
              | exact hseq c (List.mem_of_mem_filter (List.mem_of_mem_filter hc))
              | exact List.mem_of_mem_filter hc
              | exact List.mem_of_mem_filter (List.mem_of_mem_filter hc)
              | exact hc)

theorem finalAdjust_mem (o : Oracle) (nb : ℕ) (cfg : SeqConfig) (seq : List Char)
    (freqs : Freq) (k i : ℕ) (letter : Char) (hch : ∀ k n, 0 < n → o.choice k n < n)
    (hseq : ∀ x ∈ seq, x ∈ LETTERS) (hlet : letter ∈ LETTERS) :
    (finalAdjust o nb cfg seq freqs k i letter).1 ∈ LETTERS := by
  unfold finalAdjust
  dsimp only
  split_ifs with h1
  · exact hlet
  all_goals
    apply _choose_letter_mem _ _ _ _ _ hch
    intro c hc
    first
      | exact List.mem_of_mem_filter hc
      | exact List.mem_of_mem_filter (List.mem_of_mem_filter hc)
      | exact List.mem_of_mem_filter (List.mem_of_mem_filter (List.mem_of_mem_filter hc))

theorem fillNonTarget_lure (o : Oracle) (nb : ℕ) (cfg : SeqConfig) (seq : List Char)
    (freqs : Freq) (k i : ℕ) :
    (fillNonTarget o nb cfg seq freqs k i).2.1 = "none" ∨
    (fillNonTarget o nb cfg seq freqs k i).2.1 = "n-1" ∨
    (fillNonTarget o nb cfg seq freqs k i).2.1 = "n+1" := by
  unfold fillNonTarget
  dsimp only
  split
  · right; left; rfl
  · split
    · right; right; rfl
    · left; rfl

/-- The structural invariant of the fill loop: parallel lengths, letters
from the alphabet, flags in {0,1}, lure tags among the three values. -/
def GenInv (st : GenState) : Prop :=
  st.is_target_flags.length = st.seq.length ∧
  st.lure_types.length = st.seq.length ∧
  (∀ c ∈ st.seq, c ∈ LETTERS) ∧
  (∀ f ∈ st.is_target_flags, f = 0 ∨ f = 1) ∧
  (∀ l ∈ st.lure_types, l = "none" ∨ l = "n-1" ∨ l = "n+1")

theorem fillPick_mem (o : Oracle) (nb : ℕ) (cfg : SeqConfig) (tset : List ℕ)
    (st : GenState) (i : ℕ) (hch : ∀ k n, 0 < n → o.choice k n < n)
    (hseq : ∀ x ∈ st.seq, x ∈ LETTERS) :
    (fillPick o nb cfg tset st i).1 ∈ LETTERS := by
  unfold fillPick
  split_ifs with h
  · exact seq_getD_mem st.seq _ hseq
  · exact fillNonTarget_mem o nb cfg st.seq st.freqs st.k i hch hseq

theorem fillPick_flag (o : Oracle) (nb : ℕ) (cfg : SeqConfig) (tset : List ℕ)
    (st : GenState) (i : ℕ) :
    (fillPick o nb cfg tset st i).2.1 = 0 ∨ (fillPick o nb cfg tset st i).2.1 = 1 := by
  unfold fillPick
  split_ifs with h
  · right; rfl
  · left; rfl

theorem fillPick_lure (o : Oracle) (nb : ℕ) (cfg : SeqConfig) (tset : List ℕ)
    (st : GenState) (i : ℕ) :
    (fillPick o nb cfg tset st i).2.2.1 = "none" ∨
    (fillPick o nb cfg tset st i).2.2.1 = "n-1" ∨
    (fillPick o nb cfg tset st i).2.2.1 = "n+1" := by
  unfold fillPick
  split_ifs with h
  · left; rfl
  · exact fillNonTarget_lure o nb cfg st.seq st.freqs st.k i

theorem fillStep_inv (o : Oracle) (nb : ℕ) (cfg : SeqConfig) (tset : List ℕ)
    (st : GenState) (i : ℕ) (hch : ∀ k n, 0 < n → o.choice k n < n)
    (h : GenInv st) : GenInv (fillStep o nb cfg tset st i) := by
  obtain ⟨h1, h2, h3, h4, h5⟩ := h
  refine ⟨?_, ?_, ?_, ?_, ?_⟩
  · simp [fillStep, h1]
  · simp [fillStep, h2]
  · intro c hc
    simp only [fillStep, List.mem_append, List.mem_singleton] at hc
    rcases hc with hc | hc
    · exact h3 c hc
    · rw [hc]
      exact finalAdjust_mem o nb cfg st.seq st.freqs _ i _ hch h3
        (fillPick_mem o nb cfg tset st i hch h3)
  · intro f hf
    simp only [fillStep, List.mem_append, List.mem_singleton] at hf
    rcases hf with hf | hf
    · exact h4 f hf
    · rw [hf]
      exact fillPick_flag o nb cfg tset st i
  · intro l hl
    simp only [fillStep, List.mem_append, List.mem_singleton] at hl
    rcases hl with hl | hl
    · exact h5 l hl
    · rw [hl]
      exact fillPick_lure o nb cfg tset st i

theorem foldl_fillStep_inv (o : Oracle) (nb : ℕ) (cfg : SeqConfig) (tset : List ℕ)
    (l : List ℕ) (st : GenState) (hch : ∀ k n, 0 < n → o.choice k n < n)
    (h : GenInv st) : GenInv (List.foldl (fillStep o nb cfg tset) st l) := by
  induction l generalizing st with
  | nil => exact h
  | cons i rest ih =>
    rw [List.foldl_cons]
    exact ih _ (fillStep_inv o nb cfg tset st i hch h)

theorem fillStep_seq_len (o : Oracle) (nb : ℕ) (cfg : SeqConfig) (tset : List ℕ)
    (st : GenState) (i : ℕ) :
    (fillStep o nb cfg tset st i).seq.length = st.seq.length + 1 := by
  simp [fillStep]

theorem foldl_fillStep_seq_len (o : Oracle) (nb : ℕ) (cfg : SeqConfig) (tset : List ℕ)
    (l : List ℕ) (st : GenState) :
    (List.foldl (fillStep o nb cfg tset) st l).seq.length = st.seq.length + l.length := by
  induction l generalizing st with
  | nil => simp
  | cons i rest ih =>
    rw [List.foldl_cons, ih, fillStep_seq_len, List.length_cons]
    omega

theorem genInv_init : GenInv ⟨[], [], [], initFreqs, k⟩ := by
  refine ⟨rfl, rfl, ?_, ?_, ?_⟩ <;> intro x hx <;> simp at hx

/-
Characterizing what the primary loop returns: some plan list comes from a
filled state that passed the validator.
-/

theorem fillAll_inv (o : Oracle) (nb : ℕ) (cfg : SeqConfig) (tset : List ℕ)
    (k nt : ℕ) (hch : ∀ k n, 0 < n → o.choice k n < n) :
    GenInv (fillAll o nb cfg tset k nt) :=
  foldl_fillStep_inv o nb cfg tset (List.range nt) _ hch genInv_init

theorem fillAll_seq_len (o : Oracle) (nb : ℕ) (cfg : SeqConfig) (tset : List ℕ)
    (k nt : ℕ) : (fillAll o nb cfg tset k nt).seq.length = nt := by
  unfold fillAll
  rw [foldl_fillStep_seq_len]
  simp

theorem primaryAttempt_some (o : Oracle) (nb nt : ℕ) (cfg : SeqConfig)
    (desired : ℤ) (k : ℕ) (ps : List TrialPlan)
    (h : (primaryAttempt o nb nt cfg desired k).1 = some ps) :
    ∃ tset k1,
      (validate_sequence (fillAll o nb cfg tset k1 nt).seq
        (fillAll o nb cfg tset k1 nt).is_target_flags
        (fillAll o nb cfg tset k1 nt).lure_types nb
        cfg.target_rate 1 cfg.max_consec_targets).1 = true ∧
      ps = mkPlans (fillAll o nb cfg tset k1 nt).seq
        (fillAll o nb cfg tset k1 nt).is_target_flags
        (fillAll o nb cfg tset k1 nt).lure_types cfg.fixed_iti_ms nt := by
  unfold primaryAttempt at h
  dsimp only at h
  cases hs : (_sample_target_indices o nb nt desired cfg.max_consec_targets k).1 with
  | none => rw [hs] at h; simp at h
  | some tset =>
    rw [hs] at h
    dsimp only at h
    split_ifs at h with hv
    simp only [Option.some_inj] at h
    exact ⟨tset, _, hv, h.symm⟩

theorem primaryLoop_some (o : Oracle) (nb nt : ℕ) (cfg : SeqConfig) (desired : ℤ)
    (k fuel : ℕ) (ps : List TrialPlan)
    (h : (primaryLoop o nb nt cfg desired k fuel).1 = some ps) :
    ∃ k0, (primaryAttempt o nb nt cfg desired k0).1 = some ps := by
  induction fuel generalizing k with
  | zero => simp [primaryLoop] at h
  | succ fuel ih =>
    unfold primaryLoop at h
    dsimp only at h
    cases ha : (primaryAttempt o nb nt cfg desired k).1 with
    | some ps2 =>
      rw [ha] at h
      dsimp only at h
      simp only [Option.some_inj] at h
      exact ⟨k, by rw [ha, h]⟩
    | none =>
      rw [ha] at h
      exact ih _ h

/-- The master lemma for the primary path: any plan list it returns comes
from lists of length `n_trials` that satisfy the structural invariant and
pass `validate_sequence`. -/
theorem primary_some_master (o : Oracle) (nb nt : ℕ) (cfg : SeqConfig) (desired : ℤ)
    (k fuel : ℕ) (ps : List TrialPlan) (hch : ∀ k n, 0 < n → o.choice k n < n)
    (h : (primaryLoop o nb nt cfg desired k fuel).1 = some ps) :
    ∃ seq flags lures,
      seq.length = nt ∧ flags.length = nt ∧ lures.length = nt ∧
      (∀ c ∈ seq, c ∈ LETTERS) ∧ (∀ f ∈ flags, f = 0 ∨ f = 1) ∧
      (∀ l ∈ lures, l = "none" ∨ l = "n-1" ∨ l = "n+1") ∧
      (validate_sequence seq flags lures nb cfg.target_rate 1
        cfg.max_consec_targets).1 = true ∧
      ps = mkPlans seq flags lures cfg.fixed_iti_ms nt := by
  obtain ⟨k0, h0⟩ := primaryLoop_some o nb nt cfg desired k fuel ps h
  obtain ⟨tset, k1, hv, hps⟩ := primaryAttempt_some o nb nt cfg desired k0 ps h0
  obtain ⟨i1, i2, i3, i4, i5⟩ := fillAll_inv o nb cfg tset k1 nt hch
  have hlen := fillAll_seq_len o nb cfg tset k1 nt
  exact ⟨_, _, _, hlen, by omega, by omega, i3, i4, i5, hv, hps⟩

/-
Fallback invariants.
-/

theorem foldl_preserve {α β : Type} (P : α → Prop) (f : α → β → α) (l : List β)
    (init : α) (h0 : P init) (hstep : ∀ a b, b ∈ l → P a → P (f a b)) :
    P (List.foldl f init l) := by
  induction l generalizing init with
  | nil => exact h0
  | cons b rest ih =>
    rw [List.foldl_cons]
    exact ih (f init b) (hstep init b (by simp) h0)
      (fun a c hc ha => hstep a c (List.mem_cons_of_mem b hc) ha)

theorem fbPassStep_disj (desired : ℤ) (mc nt : ℕ) (fl : List ℕ) (i : ℕ) :
    fbPassStep desired mc nt fl i = fl ∨
    (((fl.sum : ℕ) : ℤ) < desired ∧ fbPassStep desired mc nt fl i = fl.set i 1) := by
  unfold fbPassStep
  dsimp only
  split_ifs with h1 <;>
    first
      | (left; rfl)
      | (right; exact ⟨by omega, rfl⟩)

theorem fbPassStep_length (desired : ℤ) (mc nt : ℕ) (fl : List ℕ) (i : ℕ) :
    (fbPassStep desired mc nt fl i).length = fl.length := by
  rcases fbPassStep_disj desired mc nt fl i with h | ⟨_, h⟩ <;> simp [h]

theorem fbPassStep_values (desired : ℤ) (mc nt : ℕ) (fl : List ℕ) (i : ℕ)
    (h : ∀ f ∈ fl, f = 0 ∨ f = 1) : ∀ f ∈ fbPassStep desired mc nt fl i, f = 0 ∨ f = 1 := by
  rcases fbPassStep_disj desired mc nt fl i with he | ⟨_, he⟩ <;> rw [he]
  · exact h
  · intro f hf
    rcases List.mem_or_eq_of_mem_set hf with hm | hone
    · exact h f hm
    · right; exact hone

theorem fbPassStep_sum (desired : ℤ) (mc nt : ℕ) (fl : List ℕ) (i : ℕ)
    (h : ((fl.sum : ℕ) : ℤ) ≤ max desired 0) :
    (((fbPassStep desired mc nt fl i).sum : ℕ) : ℤ) ≤ max desired 0 := by
  rcases fbPassStep_disj desired mc nt fl i with he | ⟨hlt, he⟩ <;> rw [he]
  · exact h
  · have hset := sum_set_le fl i
    have hub : (((fl.set i 1).sum : ℕ) : ℤ) ≤ ((fl.sum : ℕ) : ℤ) + 1 := by
      exact_mod_cast hset
    omega

theorem fbPassStep_low (desired : ℤ) (mc nt nb : ℕ) (fl : List ℕ) (i : ℕ)
    (hi : nb ≤ i) (h : ∀ j, j < nb → fl.getD j 0 = 0) :
    ∀ j, j < nb → (fbPassStep desired mc nt fl i).getD j 0 = 0 := by
  rcases fbPassStep_disj desired mc nt fl i with he | ⟨_, he⟩ <;> rw [he]
  · exact h
  · intro j hj
    rw [getD_set]
    split_ifs with he2
    · omega
    · exact h j hj

theorem getD_one_lt_length (l : List ℕ) (n : ℕ) (h : l.getD n 0 = 1) : n < l.length := by
  by_contra hge
  push_neg at hge
  rw [List.getD_eq_getElem?_getD, List.getElem?_eq_none hge] at h
  simp at h

/-- No two adjacent set flags, bundled with the length bound the
right-neighbour check needs. -/
def NoAdjacent (fl : List ℕ) (nt : ℕ) : Prop :=
  fl.length = nt ∧ ∀ j, ¬ (fl.getD j 0 = 1 ∧ fl.getD (j + 1) 0 = 1)

theorem fbPassStep_one_disj (desired : ℤ) (nt : ℕ) (fl : List ℕ) (i : ℕ) :
    fbPassStep desired 1 nt fl i = fl ∨
    (¬ (1 ≤ i ∧ fl.getD (i - 1) 0 = 1) ∧ ¬ (i + 1 < nt ∧ fl.getD (i + 1) 0 = 1) ∧
      fbPassStep desired 1 nt fl i = fl.set i 1) := by
  unfold fbPassStep
  dsimp only
  by_cases h1 : ((fl.sum : ℕ) : ℤ) ≥ desired
  · rw [if_pos h1]; left; rfl
  · rw [if_neg h1, if_neg (by norm_num : ¬ (1 : ℕ) = 0)]
    by_cases h3 : 1 ≤ i ∧ fl.getD (i - 1) 0 = 1
    · rw [if_pos h3, if_pos (Nat.le_add_right 1 _)]
      left; rfl
    · rw [if_neg h3]
      by_cases h4 : i + 1 < nt ∧ fl.getD (i + 1) 0 = 1
      · rw [if_pos h4, if_pos (by norm_num)]
        left; rfl
      · rw [if_neg h4, if_neg (by norm_num)]
        right; exact ⟨h3, h4, rfl⟩

theorem fbPassStep_noadj (desired : ℤ) (nt : ℕ) (fl : List ℕ) (i : ℕ)
    (h : NoAdjacent fl nt) : NoAdjacent (fbPassStep desired 1 nt fl i) nt := by
  obtain ⟨hlen, hadj⟩ := h
  rcases fbPassStep_one_disj desired nt fl i with he | ⟨hleft, hright, he⟩ <;> rw [he]
  · exact ⟨hlen, hadj⟩
  · refine ⟨by simpa using hlen, ?_⟩
    intro j hcon
    obtain ⟨hc1, hc2⟩ := hcon
    rw [getD_set] at hc1 hc2
    by_cases he1 : i = j ∧ i < fl.length
    · obtain ⟨rfl, hlt⟩ := he1
      rw [if_neg (by rintro ⟨ha, hb⟩; omega)] at hc2
      have hlt2 := getD_one_lt_length fl (i + 1) hc2
      exact hright ⟨by omega, hc2⟩
    · rw [if_neg he1] at hc1
      by_cases he2 : i = j + 1 ∧ i < fl.length
      · obtain ⟨hij, hlt⟩ := he2
        exact hleft ⟨by omega, by rw [show i - 1 = j by omega]; exact hc1⟩
      · rw [if_neg he2] at hc2
        exact hadj j ⟨hc1, hc2⟩

/-- Generic preservation through the fallback while loop: `P` on the flag
list, `C` on candidate indices (kept through re-shuffles by permutation). -/
theorem fbWhile_preserve (o : Oracle) (desired : ℤ) (mc nt : ℕ)
    (P : List ℕ → Prop) (C : ℕ → Prop)
    (hsh : ∀ k l, (o.shuffle k l).Perm l)
    (hstep : ∀ fl i, C i → P fl → P (fbPassStep desired mc nt fl i))
    (flags cands : List ℕ) (k fuel : ℕ)
    (hc : ∀ x ∈ cands, C x) (hp : P flags) :
    P (fbWhile o desired mc nt flags cands k fuel).1 := by
  induction fuel generalizing flags cands k with
  | zero => exact hp
  | succ fuel ih =>
    unfold fbWhile
    dsimp only
    split_ifs with h1
    · have hc2 : ∀ x ∈ o.shuffle k cands, C x :=
        fun x hx => hc x ((hsh k cands).mem_iff.mp hx)
      exact ih _ _ _ hc2
        (foldl_preserve P _ _ flags hp (fun a b hb ha => hstep a b (hc2 b hb) ha))
    · exact hp

theorem fbFinalStep_disj (nt : ℕ) (st : List ℕ × ℤ) (i : ℕ) :
    fbFinalStep nt st i = st ∨
    (0 < st.2 ∧ ¬ (1 ≤ i ∧ st.1.getD (i - 1) 0 = 1) ∧
      ¬ (i + 1 < nt ∧ st.1.getD (i + 1) 0 = 1) ∧
      fbFinalStep nt st i = (st.1.set i 1, st.2 - 1)) := by
  unfold fbFinalStep
  dsimp only
  by_cases h1 : st.2 ≤ 0
  · rw [if_pos h1]; left; rfl
  · rw [if_neg h1]
    by_cases h3 : 1 ≤ i ∧ st.1.getD (i - 1) 0 = 1
    · rw [if_pos h3, if_neg (by simp)]
      left; rfl
    · rw [if_neg h3]
      by_cases h4 : i + 1 < nt ∧ st.1.getD (i + 1) 0 = 1
      · rw [if_pos h4, if_neg (by simp)]
        left; rfl
      · rw [if_neg h4, if_pos (by simp)]
        right; exact ⟨by omega, h3, h4, rfl⟩

/-- Generic preservation through the fallback's final pass. -/
theorem fbFinal_preserve (o : Oracle) (nb nt : ℕ) (desired : ℤ) (flags : List ℕ)
    (k : ℕ) (P : List ℕ → Prop) (C : ℕ → Prop)
    (hsh : ∀ k l, (o.shuffle k l).Perm l)
    (hstep : ∀ (st : List ℕ × ℤ) i, C i → P st.1 → P (fbFinalStep nt st i).1)
    (hc : ∀ x ∈ List.range' nb (nt - nb), C x) (hp : P flags) :
    P (fbFinal o nb nt desired flags k).1 := by
  unfold fbFinal
  dsimp only
  split_ifs with h1 h2
  · apply foldl_preserve (fun (st : List ℕ × ℤ) => P st.1) (fbFinalStep nt) _ _ hp
    intro a b hb ha
    have hb2 : b ∈ (List.range' nb (nt - nb)).filter (fun i => flags.getD i 0 == 0) :=
      ((hsh k _).mem_iff).mp hb
    exact hstep a b (hc b (List.mem_of_mem_filter hb2)) ha
  · exact hp
  · exact hp

theorem fbFinalStep_sum (nt : ℕ) (st : List ℕ × ℤ) (i : ℕ) (D : ℤ)
    (h : ((st.1.sum : ℕ) : ℤ) + max st.2 0 ≤ D) :
    (((fbFinalStep nt st i).1.sum : ℕ) : ℤ) + max (fbFinalStep nt st i).2 0 ≤ D := by
  rcases fbFinalStep_disj nt st i with he | ⟨hpos, _, _, he⟩ <;> rw [he]
  · exact h
  · dsimp only
    have hset := sum_set_le st.1 i
    have hub : (((st.1.set i 1).sum : ℕ) : ℤ) ≤ ((st.1.sum : ℕ) : ℤ) + 1 := by
      exact_mod_cast hset
    rw [max_eq_left hpos.le] at h
    rw [max_eq_left (by omega : (0 : ℤ) ≤ st.2 - 1)]
    omega

theorem fbFinal_sum (o : Oracle) (nb nt : ℕ) (desired : ℤ) (flags : List ℕ) (k : ℕ)
    (h : ((flags.sum : ℕ) : ℤ) ≤ max desired 0) :
    (((fbFinal o nb nt desired flags k).1.sum : ℕ) : ℤ) ≤ max desired 0 := by
  unfold fbFinal
  dsimp only
  split_ifs with h1 h2
  · set pool := o.shuffle k ((List.range' nb (nt - nb)).filter
      (fun i => flags.getD i 0 == 0)) with hpool
    have hinv : (((List.foldl (fbFinalStep nt)
        (flags, desired - ((flags.sum : ℕ) : ℤ)) pool).1.sum : ℕ) : ℤ) +
        max (List.foldl (fbFinalStep nt)
          (flags, desired - ((flags.sum : ℕ) : ℤ)) pool).2 0 ≤ max desired 0 := by
      apply foldl_preserve
        (fun (st : List ℕ × ℤ) => ((st.1.sum : ℕ) : ℤ) + max st.2 0 ≤ max desired 0)
        (fbFinalStep nt) pool (flags, desired - ((flags.sum : ℕ) : ℤ))
      · dsimp only
        rw [max_eq_left (by omega : (0 : ℤ) ≤ desired - ((flags.sum : ℕ) : ℤ))]
        omega
      · exact fun a b _ ha => fbFinalStep_sum nt a b _ ha
    have hge : (0 : ℤ) ≤ max (List.foldl (fbFinalStep nt)
        (flags, desired - ((flags.sum : ℕ) : ℤ)) pool).2 0 := le_max_right _ 0
    dsimp only
    omega
  · exact h
  · exact h

theorem set_one_noadj (fl : List ℕ) (nt i : ℕ)
    (hleft : ¬ (1 ≤ i ∧ fl.getD (i - 1) 0 = 1))
    (hright : ¬ (i + 1 < nt ∧ fl.getD (i + 1) 0 = 1))
    (h : NoAdjacent fl nt) : NoAdjacent (fl.set i 1) nt := by
  obtain ⟨hlen, hadj⟩ := h
  refine ⟨by simpa using hlen, ?_⟩
  intro j hcon
  obtain ⟨hc1, hc2⟩ := hcon
  rw [getD_set] at hc1 hc2
  by_cases he1 : i = j ∧ i < fl.length
  · obtain ⟨rfl, hlt⟩ := he1
    rw [if_neg (by rintro ⟨ha, hb⟩; omega)] at hc2
    have hlt2 := getD_one_lt_length fl (i + 1) hc2
    exact hright ⟨by omega, hc2⟩
  · rw [if_neg he1] at hc1
    by_cases he2 : i = j + 1 ∧ i < fl.length
    · obtain ⟨hij, hlt⟩ := he2
      exact hleft ⟨by omega, by rw [show i - 1 = j by omega]; exact hc1⟩
    · rw [if_neg he2] at hc2
      exact hadj j ⟨hc1, hc2⟩

theorem fbFinalStep_noadj (nt : ℕ) (st : List ℕ × ℤ) (i : ℕ)
    (h : NoAdjacent st.1 nt) : NoAdjacent (fbFinalStep nt st i).1 nt := by
  rcases fbFinalStep_disj nt st i with he | ⟨_, hleft, hright, he⟩ <;> rw [he]
  · exact h
  · exact set_one_noadj st.1 nt i hleft hright h

theorem fbFinalStep_length (nt : ℕ) (st : List ℕ × ℤ) (i : ℕ) :
    (fbFinalStep nt st i).1.length = st.1.length := by
  rcases fbFinalStep_disj nt st i with he | ⟨_, _, _, he⟩ <;> rw [he] <;> simp

theorem fbFinalStep_values (nt : ℕ) (st : List ℕ × ℤ) (i : ℕ)
    (h : ∀ f ∈ st.1, f = 0 ∨ f = 1) : ∀ f ∈ (fbFinalStep nt st i).1, f = 0 ∨ f = 1 := by
  rcases fbFinalStep_disj nt st i with he | ⟨_, _, _, he⟩ <;> rw [he]
  · exact h
  · intro f hf
    rcases List.mem_or_eq_of_mem_set hf with hm | hone
    · exact h f hm
    · right; exact hone

theorem fbFinalStep_low (nt nb : ℕ) (st : List ℕ × ℤ) (i : ℕ) (hi : nb ≤ i)
    (h : ∀ j, j < nb → st.1.getD j 0 = 0) :
    ∀ j, j < nb → (fbFinalStep nt st i).1.getD j 0 = 0 := by
  rcases fbFinalStep_disj nt st i with he | ⟨_, _, _, he⟩ <;> rw [he]
  · exact h
  · intro j hj
    rw [getD_set]
    split_ifs with he2
    · omega
    · exact h j hj

theorem fbLetterStep_lure (o : Oracle) (nb : ℕ) (flags : List ℕ)
    (st : List Char × List String × ℕ) (i : ℕ) :
    (fbLetterStep o nb flags st i).2.1 = st.2.1 ++ ["none"] := by
  unfold fbLetterStep
  dsimp only
  split_ifs <;> rfl

theorem fbLetterStep_seq_len (o : Oracle) (nb : ℕ) (flags : List ℕ)
    (st : List Char × List String × ℕ) (i : ℕ) :
    (fbLetterStep o nb flags st i).1.length = st.1.length + 1 := by
  unfold fbLetterStep
  dsimp only
  split_ifs <;> simp

theorem fbCandidates_sub (nb : ℕ) (seq : List Char) (i : ℕ) :
    ∀ x ∈ fbCandidates nb seq i, x ∈ LETTERS := by
  unfold fbCandidates
  dsimp only
  split_ifs <;> intro x hx <;>
    first
      | exact hx
      | exact List.mem_of_mem_filter hx
      | exact List.mem_of_mem_filter (List.mem_of_mem_filter hx)

theorem fbLetterStep_mem (o : Oracle) (nb : ℕ) (flags : List ℕ)
    (st : List Char × List String × ℕ) (i : ℕ)
    (hch : ∀ k n, 0 < n → o.choice k n < n)
    (h : ∀ c ∈ st.1, c ∈ LETTERS) :
    ∀ c ∈ (fbLetterStep o nb flags st i).1, c ∈ LETTERS := by
  intro c hc
  unfold fbLetterStep at hc
  dsimp only at hc
  by_cases h1 : flags.getD i 0 = 1 ∧ nb ≤ i
  · rw [if_pos h1] at hc
    rcases List.mem_append.mp hc with hm | hm
    · exact h c hm
    · rw [List.mem_singleton] at hm
      rw [hm]
      exact seq_getD_mem st.1 _ h
  · rw [if_neg h1] at hc
    by_cases h2 : fbCandidates nb st.1 i = []
    · rw [if_pos h2] at hc
      rcases List.mem_append.mp hc with hm | hm
      · exact h c hm
      · rw [List.mem_singleton] at hm
        rw [hm]; decide
    · rw [if_neg h2] at hc
      rcases List.mem_append.mp hc with hm | hm
      · exact h c hm
      · rw [List.mem_singleton] at hm
        rw [hm]
        have hlen : 0 < (fbCandidates nb st.1 i).length := List.length_pos.mpr h2
        have hidx := hch st.2.2 _ hlen
        rw [List.getD_eq_getElem _ 'A' hidx]
        exact fbCandidates_sub nb st.1 i _ ((fbCandidates nb st.1 i).getElem_mem hidx)

theorem hasTargetRun_two (L : List ℕ) (h : hasTargetRun L 2) :
    ∃ j, j + 1 < L.length ∧ L.getD j 0 = 1 ∧ L.getD (j + 1) 0 = 1 := by
  obtain ⟨s, t, heq⟩ := h
  have hassoc : L = s ++ (List.replicate 2 1 ++ t) := by rw [heq, List.append_assoc]
  refine ⟨s.length, ?_, ?_, ?_⟩
  · rw [heq]
    simp only [List.length_append, List.length_replicate]
    omega
  · rw [hassoc]
    have := getD_append_right_len s (List.replicate 2 1 ++ t) 0 0
    simpa using this
  · rw [hassoc]
    have := getD_append_right_len s (List.replicate 2 1 ++ t) 1 0
    simpa using this

theorem fallback_flags_facts (o : Oracle) (nb nt : ℕ) (mc : ℕ) (desired : ℤ) (k : ℕ)
    (hsh : ∀ k2 l, (o.shuffle k2 l).Perm l) :
    (fbFinal o nb nt desired
      (fbWhile o desired mc nt (List.replicate nt 0) (List.range' nb (nt - nb)) k 50).1
      (fbWhile o desired mc nt (List.replicate nt 0) (List.range' nb (nt - nb)) k 50).2).1.length = nt ∧
    (∀ x ∈ (fbFinal o nb nt desired
      (fbWhile o desired mc nt (List.replicate nt 0) (List.range' nb (nt - nb)) k 50).1
      (fbWhile o desired mc nt (List.replicate nt 0) (List.range' nb (nt - nb)) k 50).2).1,
      x = 0 ∨ x = 1) ∧
    ((((fbFinal o nb nt desired
      (fbWhile o desired mc nt (List.replicate nt 0) (List.range' nb (nt - nb)) k 50).1
      (fbWhile o desired mc nt (List.replicate nt 0) (List.range' nb (nt - nb)) k 50).2).1.sum : ℕ) : ℤ)
      ≤ max desired 0) ∧
    (∀ j, j < nb → (fbFinal o nb nt desired
      (fbWhile o desired mc nt (List.replicate nt 0) (List.range' nb (nt - nb)) k 50).1
      (fbWhile o desired mc nt (List.replicate nt 0) (List.range' nb (nt - nb)) k 50).2).1.getD j 0 = 0) ∧
    (mc = 1 → NoAdjacent (fbFinal o nb nt desired
      (fbWhile o desired mc nt (List.replicate nt 0) (List.range' nb (nt - nb)) k 50).1
      (fbWhile o desired mc nt (List.replicate nt 0) (List.range' nb (nt - nb)) k 50).2).1 nt) := by
  have hrange : ∀ x ∈ List.range' nb (nt - nb), nb ≤ x := by
    intro x hx
    exact (List.mem_range'_1.mp hx).1
  have hw_len : (fbWhile o desired mc nt (List.replicate nt 0)
      (List.range' nb (nt - nb)) k 50).1.length = nt := by
    have := fbWhile_preserve o desired mc nt (fun fl => fl.length = nt) (fun _ => True)
      hsh (fun fl i _ hp => by dsimp only; rw [fbPassStep_length]; exact hp)
      (List.replicate nt 0) (List.range' nb (nt - nb)) k 50
      (fun x _ => trivial) (by simp)
    exact this
  have hw_val : ∀ x ∈ (fbWhile o desired mc nt (List.replicate nt 0)
      (List.range' nb (nt - nb)) k 50).1, x = 0 ∨ x = 1 :=
    fbWhile_preserve o desired mc nt (fun fl => ∀ x ∈ fl, x = 0 ∨ x = 1) (fun _ => True)
      hsh (fun fl i _ hp => fbPassStep_values desired mc nt fl i hp)
      (List.replicate nt 0) (List.range' nb (nt - nb)) k 50
      (fun x _ => trivial) (fun x hx => Or.inl (List.eq_of_mem_replicate hx))
  have hw_sum : (((fbWhile o desired mc nt (List.replicate nt 0)
      (List.range' nb (nt - nb)) k 50).1.sum : ℕ) : ℤ) ≤ max desired 0 :=
    fbWhile_preserve o desired mc nt
      (fun fl => ((fl.sum : ℕ) : ℤ) ≤ max desired 0) (fun _ => True)
      hsh (fun fl i _ hp => fbPassStep_sum desired mc nt fl i hp)
      (List.replicate nt 0) (List.range' nb (nt - nb)) k 50
      (fun x _ => trivial) (by simp)
  have hw_low : ∀ j, j < nb → (fbWhile o desired mc nt (List.replicate nt 0)
      (List.range' nb (nt - nb)) k 50).1.getD j 0 = 0 :=
    fbWhile_preserve o desired mc nt
      (fun fl => ∀ j, j < nb → fl.getD j 0 = 0) (fun i => nb ≤ i)
      hsh (fun fl i hc hp => fbPassStep_low desired mc nt nb fl i hc hp)
      (List.replicate nt 0) (List.range' nb (nt - nb)) k 50
      hrange (fun j hj => by rw [List.getD_eq_getElem?_getD]; cases hcase : (List.replicate nt 0)[j]? with
        | none => rfl
        | some v => simp [List.getElem?_eq_some_iff] at hcase; simp [hcase.2])
  refine ⟨?_, ?_, ?_, ?_, ?_⟩
  · exact fbFinal_preserve o nb nt desired _ _ (fun fl => fl.length = nt) (fun _ => True)
      hsh (fun st i _ hp => by dsimp only; rw [fbFinalStep_length]; exact hp)
      (fun x _ => trivial) hw_len
  · exact fbFinal_preserve o nb nt desired _ _ (fun fl => ∀ x ∈ fl, x = 0 ∨ x = 1)
      (fun _ => True) hsh (fun st i _ hp => fbFinalStep_values nt st i hp)
      (fun x _ => trivial) hw_val
  · exact fbFinal_sum o nb nt desired _ _ hw_sum
  · exact fbFinal_preserve o nb nt desired _ _
      (fun fl => ∀ j, j < nb → fl.getD j 0 = 0) (fun i => nb ≤ i)
      hsh (fun st i hc hp => fbFinalStep_low nt nb st i hc hp) hrange hw_low
  · intro hmc
    subst hmc
    have hw_noadj : NoAdjacent (fbWhile o desired 1 nt (List.replicate nt 0)
        (List.range' nb (nt - nb)) k 50).1 nt :=
      fbWhile_preserve o desired 1 nt (fun fl => NoAdjacent fl nt) (fun _ => True)
        hsh (fun fl i _ hp => fbPassStep_noadj desired nt fl i hp)
        (List.replicate nt 0) (List.range' nb (nt - nb)) k 50
        (fun x _ => trivial)
        ⟨by simp, by
          intro j hcon
          obtain ⟨hc1, _⟩ := hcon
          have := getD_one_lt_length _ _ hc1
          rw [List.length_replicate] at this
          rw [List.getD_eq_getElem?_getD, List.getElem?_replicate_of_lt this] at hc1
          simp at hc1⟩
    exact fbFinal_preserve o nb nt desired _ _ (fun fl => NoAdjacent fl nt)
      (fun _ => True) hsh (fun st i _ hp => fbFinalStep_noadj nt st i hp)
      (fun x _ => trivial) hw_noadj

/-- Facts about a fallback-shaped plan list, abstracted over the flag,
letter and lure lists and their invariants. -/
theorem fbPlans_facts (nt nb : ℕ) (iti : ℤ) (F : List ℕ) (seqL : List Char)
    (lureL : List String) (D : ℤ) (ps : List TrialPlan)
    (hps : ps = (List.range nt).map (fun i =>
      ⟨seqL.getD i 'A', if F.getD i 0 = 1 then 1 else 0, lureL.getD i "none", iti⟩))
    (hFlen : F.length = nt)
    (hFsum : ((F.sum : ℕ) : ℤ) ≤ max D 0)
    (hFval : ∀ x ∈ F, x = 0 ∨ x = 1)
    (hFlow : ∀ j, j < nb → F.getD j 0 = 0)
    (hSeq : ∀ c ∈ seqL, c ∈ LETTERS)
    (hLure : ∀ l ∈ lureL, l = "none") :
    (∀ i, (ps.getD i defaultPlan).stimulus ∈ LETTERS) ∧
    (∀ i, (ps.getD i defaultPlan).is_target = 0 ∨ (ps.getD i defaultPlan).is_target = 1) ∧
    (∀ i, (ps.getD i defaultPlan).lure_type = "none") ∧
    ((targetCount ps : ℤ) ≤ max D 0) ∧
    (∀ i, i < nb → (ps.getD i defaultPlan).is_target = 0) ∧
    (NoAdjacent F nt → ¬ hasTargetRun (ps.map TrialPlan.is_target) 2) := by
  subst hps
  have hgetD : ∀ i, i < nt → ((List.range nt).map (fun i =>
      (⟨seqL.getD i 'A', if F.getD i 0 = 1 then 1 else 0, lureL.getD i "none", iti⟩ :
        TrialPlan))).getD i defaultPlan =
      ⟨seqL.getD i 'A', if F.getD i 0 = 1 then 1 else 0, lureL.getD i "none", iti⟩ :=
    fun i hi => getD_range_map _ nt i defaultPlan hi
  have hout : ∀ i, ¬ i < nt → ((List.range nt).map (fun i =>
      (⟨seqL.getD i 'A', if F.getD i 0 = 1 then 1 else 0, lureL.getD i "none", iti⟩ :
        TrialPlan))).getD i defaultPlan = defaultPlan := by
    intro i hi
    rw [List.getD_eq_getElem?_getD, List.getElem?_eq_none]
    · rfl
    · simp
      omega
  refine ⟨?_, ?_, ?_, ?_, ?_, ?_⟩
  · intro i
    by_cases hi : i < nt
    · rw [hgetD i hi]
      exact seq_getD_mem seqL i hSeq
    · rw [hout i hi]
      exact a_mem_letters
  · intro i
    by_cases hi : i < nt
    · rw [hgetD i hi]
      dsimp only
      split_ifs
      · right; rfl
      · left; rfl
    · rw [hout i hi]
      left; rfl
  · intro i
    by_cases hi : i < nt
    · rw [hgetD i hi]
      dsimp only
      rcases getD_mem_or lureL i "none" with hm | hm
      · exact hLure _ hm
      · exact hm
    · rw [hout i hi]
      rfl
  · unfold targetCount
    rw [List.countP_map]
    have hcong : (List.range nt).countP
        ((fun p : TrialPlan => p.is_target == 1) ∘ (fun i =>
          ⟨seqL.getD i 'A', if F.getD i 0 = 1 then 1 else 0, lureL.getD i "none", iti⟩)) =
        (List.range nt).countP (fun i => F.getD i 0 == 1) := by
      apply List.countP_congr
      intro i _
      dsimp only [Function.comp]
      split_ifs with hf
      · simp only [beq_iff_eq, hf]
      · simp only [beq_iff_eq]
        exact ⟨fun hcon => absurd hcon (by norm_num), fun hcon => absurd hcon hf⟩
    rw [hcong]
    have hmapped : (List.range nt).countP (fun i => F.getD i 0 == 1) =
        ((List.range nt).map (fun i => F.getD i 0)).countP (fun x => x == 1) := by
      rw [List.countP_map]
      rfl
    rw [hmapped, map_getD_range F 0 nt hFlen, countP_ones_eq_sum F hFval]
    exact hFsum
  · intro i hi
    by_cases hlt : i < nt
    · rw [hgetD i hlt]
      dsimp only
      rw [hFlow i hi]
      simp
    · rw [hout i hlt]
      rfl
  · intro hnoadj hrun
    rw [List.map_map] at hrun
    obtain ⟨j, hj1, hj2, hj3⟩ := hasTargetRun_two _ hrun
    rw [List.length_map, List.length_range] at hj1
    have e2 : ∀ m, m < nt → ((List.range nt).map (TrialPlan.is_target ∘ (fun i =>
        (⟨seqL.getD i 'A', if F.getD i 0 = 1 then 1 else 0, lureL.getD i "none", iti⟩ :
          TrialPlan)))).getD m 0 = (if F.getD m 0 = 1 then 1 else 0) :=
      fun m hm => getD_range_map _ nt m 0 hm
    rw [e2 j (by omega)] at hj2
    rw [e2 (j + 1) (by omega)] at hj3
    have hf2 : F.getD j 0 = 1 := by
      by_contra hne
      rw [if_neg hne] at hj2
      exact absurd hj2 (by norm_num)
    have hf3 : F.getD (j + 1) 0 = 1 := by
      by_contra hne
      rw [if_neg hne] at hj3
      exact absurd hj3 (by norm_num)
    exact hnoadj.2 j ⟨hf2, hf3⟩

theorem fbLetters_mem (o : Oracle) (nb nt : ℕ) (F : List ℕ) (k : ℕ)
    (hch : ∀ k2 n, 0 < n → o.choice k2 n < n) :
    ∀ c ∈ (fbLetters o nb nt F k).1, c ∈ LETTERS :=
  foldl_preserve (fun (st : List Char × List String × ℕ) => ∀ c ∈ st.1, c ∈ LETTERS)
    (fbLetterStep o nb F) (List.range nt) ([], [], k) (by simp)
    (fun a b _ ha => fbLetterStep_mem o nb F a b hch ha)

theorem fbLetters_lure (o : Oracle) (nb nt : ℕ) (F : List ℕ) (k : ℕ) :
    ∀ l ∈ (fbLetters o nb nt F k).2.1, l = "none" :=
  foldl_preserve (fun (st : List Char × List String × ℕ) => ∀ l ∈ st.2.1, l = "none")
    (fbLetterStep o nb F) (List.range nt) ([], [], k) (by simp)
    (fun a b _ ha => by
      intro l hl
      rw [fbLetterStep_lure] at hl
      rcases List.mem_append.mp hl with hm | hm
      · exact ha l hm
      · rw [List.mem_singleton] at hm
        exact hm)

/-- Everything the claims need about the fallback path's output. -/
theorem fallback_master (o : Oracle) (nb nt : ℕ) (cfg : SeqConfig) (desired : ℤ)
    (k : ℕ) (hch : ∀ k2 n, 0 < n → o.choice k2 n < n)
    (hsh : ∀ k2 l, (o.shuffle k2 l).Perm l) :
    (∀ i, ((fallbackSeq o nb nt cfg desired k).getD i defaultPlan).stimulus ∈ LETTERS) ∧
    (∀ i, ((fallbackSeq o nb nt cfg desired k).getD i defaultPlan).is_target = 0 ∨
      ((fallbackSeq o nb nt cfg desired k).getD i defaultPlan).is_target = 1) ∧
    (∀ i, ((fallbackSeq o nb nt cfg desired k).getD i defaultPlan).lure_type = "none") ∧
    ((targetCount (fallbackSeq o nb nt cfg desired k) : ℤ) ≤ max desired 0) ∧
    (∀ i, i < nb → ((fallbackSeq o nb nt cfg desired k).getD i defaultPlan).is_target = 0) ∧
    (cfg.max_consec_targets = 1 →
      ¬ hasTargetRun ((fallbackSeq o nb nt cfg desired k).map TrialPlan.is_target) 2) := by
  obtain ⟨hFlen, hFval, hFsum, hFlow, hFnoadj⟩ :=
    fallback_flags_facts o nb nt cfg.max_consec_targets desired k hsh
  have hfacts := fbPlans_facts nt nb cfg.fixed_iti_ms
    (fbFinal o nb nt desired
      (fbWhile o desired cfg.max_consec_targets nt (List.replicate nt 0)
        (List.range' nb (nt - nb)) k 50).1
      (fbWhile o desired cfg.max_consec_targets nt (List.replicate nt 0)
        (List.range' nb (nt - nb)) k 50).2).1
    (fbLetters o nb nt
      (fbFinal o nb nt desired
        (fbWhile o desired cfg.max_consec_targets nt (List.replicate nt 0)
          (List.range' nb (nt - nb)) k 50).1
        (fbWhile o desired cfg.max_consec_targets nt (List.replicate nt 0)
          (List.range' nb (nt - nb)) k 50).2).1
      (fbFinal o nb nt desired
        (fbWhile o desired cfg.max_consec_targets nt (List.replicate nt 0)
          (List.range' nb (nt - nb)) k 50).1
        (fbWhile o desired cfg.max_consec_targets nt (List.replicate nt 0)
          (List.range' nb (nt - nb)) k 50).2).2).1
    (fbLetters o nb nt
      (fbFinal o nb nt desired
        (fbWhile o desired cfg.max_consec_targets nt (List.replicate nt 0)
          (List.range' nb (nt - nb)) k 50).1
        (fbWhile o desired cfg.max_consec_targets nt (List.replicate nt 0)
          (List.range' nb (nt - nb)) k 50).2).1
      (fbFinal o nb nt desired
        (fbWhile o desired cfg.max_consec_targets nt (List.replicate nt 0)
          (List.range' nb (nt - nb)) k 50).1
        (fbWhile o desired cfg.max_consec_targets nt (List.replicate nt 0)
          (List.range' nb (nt - nb)) k 50).2).2).2.1
    desired (fallbackSeq o nb nt cfg desired k) rfl
    hFlen hFsum hFval hFlow
    (fbLetters_mem o nb nt _ _ hch)
    (fbLetters_lure o nb nt _ _)
  obtain ⟨p1, p2, p3, p4, p5, p6⟩ := hfacts
  exact ⟨p1, p2, p3, p4, p5, fun hmc => p6 (hFnoadj hmc)⟩

theorem fallbackSeq_length (o : Oracle) (nb nt : ℕ) (cfg : SeqConfig) (desired : ℤ)
    (k : ℕ) : (fallbackSeq o nb nt cfg desired k).length = nt := by
  unfold fallbackSeq
  dsimp only
  simp

/-- `generate_sequence` returns either a primary-loop success or the
fallback output. -/
theorem generate_sequence_cases (o : Oracle) (nb nt : ℕ) (cfg : SeqConfig) :
    (primaryLoop o nb nt cfg (pyRound (cfg.target_rate * (nt : ℚ))) 0 cfg.max_attempts).1
      = some (generate_sequence o nb nt cfg) ∨
    (∃ k2, generate_sequence o nb nt cfg =
      fallbackSeq o nb nt cfg (pyRound (cfg.target_rate * (nt : ℚ))) k2) := by
  unfold generate_sequence
  dsimp only
  rcases he : primaryLoop o nb nt cfg (pyRound (cfg.target_rate * (nt : ℚ))) 0
    cfg.max_attempts with ⟨res, k2⟩
  cases res with
  | some ps =>
    left
    rfl
  | none =>
    right
    exact ⟨k2, rfl⟩

theorem primary_some_length (o : Oracle) (nb nt : ℕ) (cfg : SeqConfig) (desired : ℤ)
    (k fuel : ℕ) (ps : List TrialPlan)
    (h : (primaryLoop o nb nt cfg desired k fuel).1 = some ps) : ps.length = nt := by
  obtain ⟨k0, h0⟩ := primaryLoop_some o nb nt cfg desired k fuel ps h
  obtain ⟨tset, k1, _, hps⟩ := primaryAttempt_some o nb nt cfg desired k0 ps h0
  rw [hps, mkPlans_length]

theorem generate_sequence_length (o : Oracle) (nb nt : ℕ) (cfg : SeqConfig) :
    (generate_sequence o nb nt cfg).length = nt := by
  rcases generate_sequence_cases o nb nt cfg with h | ⟨k2, h⟩
  · exact primary_some_length o nb nt cfg _ 0 cfg.max_attempts _ h
  · rw [h, fallbackSeq_length]

/-
Scoring lemmas for the trial timing engine.
-/

theorem latch_no_quit (polls : List (List Key)) (r : Option Key)
    (h : latchResponse polls = some r) : r ≠ some Key.quit := by
  induction polls with
  | nil =>
    simp only [latchResponse, Option.some_inj] at h
    rw [← h]
    simp
  | cons batch rest ih =>
    cases batch with
    | nil => exact ih (by simpa [latchResponse] using h)
    | cons key ks =>
      simp only [latchResponse] at h
      rcases Decidable.em (key = Key.quit) with hq | hq
      · rw [if_pos hq] at h
        exact absurd h (by simp)
      · rw [if_neg hq] at h
        have h2 : some key = r := by injection h
        rw [← h2]
        intro hcon
        injection hcon with hkey
        exact hq hkey

theorem scoreTrial_none (it : ℕ) :
    scoreTrial it none = if it = 0 then 1 else 0 := by
  unfold scoreTrial
  dsimp only
  by_cases h0 : it = 0
  · rw [if_pos (Or.inr ⟨h0, by simp⟩), if_pos h0]
  · rw [if_neg, if_neg h0]
    rintro (⟨_, hcon⟩ | ⟨h0c, _⟩)
    · exact absurd hcon (by simp)
    · exact h0 h0c

theorem scoreTrial_response (it : ℕ) :
    scoreTrial it (some Key.response) = if it = 1 then 1 else 0 := by
  unfold scoreTrial
  dsimp only
  by_cases h1 : it = 1
  · rw [if_pos (Or.inl ⟨h1, by simp⟩), if_pos h1]
  · rw [if_neg, if_neg h1]
    rintro (⟨h1c, _⟩ | ⟨_, hcon⟩)
    · exact h1 h1c
    · exact hcon (by simp)

/-- C8: for every trial the timing engine completes, the recorded
correctness equals 1 exactly when the trial is a target and a response was
latched, or the trial is a non-target and no response was latched: a single
press of the response key counts as "match", silence as "no match". -/
theorem run_trial_correct_iff (plan : TrialPlan) (polls : List (List Key))
    (rec : TrialRecord) (h : run_trial plan polls = some rec) :
    rec.correct = 1 ↔
      ((plan.is_target = 1 ∧ rec.resp_key ≠ none) ∨
       (plan.is_target = 0 ∧ rec.resp_key = none)) := by
  unfold run_trial at h
  cases hl : latchResponse polls with
  | none => rw [hl] at h; exact absurd h (by simp)
  | some r =>
    rw [hl] at h
    simp only [Option.some_inj] at h
    have hnq := latch_no_quit polls r hl
    rw [← h]
    dsimp only
    cases r with
    | none =>
      rw [scoreTrial_none]
      constructor
      · intro ha
        by_cases h0 : plan.is_target = 0
        · right; exact ⟨h0, rfl⟩
        · rw [if_neg h0] at ha
          exact absurd ha (by norm_num)
      · rintro (⟨_, hne⟩ | ⟨h0, _⟩)
        · exact absurd rfl hne
        · rw [if_pos h0]
    | some key =>
      cases key with
      | quit => exact absurd rfl hnq
      | response =>
        rw [scoreTrial_response]
        constructor
        · intro ha
          by_cases h1 : plan.is_target = 1
          · left; exact ⟨h1, by simp⟩
          · rw [if_neg h1] at ha
            exact absurd ha (by norm_num)
        · rintro (⟨h1, _⟩ | ⟨_, hcon⟩)
          · rw [if_pos h1]
          · exact absurd hcon (by simp)

/-
Helper lemmas for the claim theorems: nonnegativity of the rounded target
count, extraction of the validator's early-target check and of the
per-position lure checks.
-/

theorem pyRound_nonneg (q : ℚ) (h : 0 ≤ q) : 0 ≤ pyRound q := by
  unfold pyRound
  dsimp only
  have hf : (0 : ℤ) ≤ Int.fdiv q.num q.den :=
    Int.fdiv_nonneg (Rat.num_nonneg.mpr h) (by positivity)
  split_ifs <;> omega

theorem checkEarly_false (flags : List ℕ) (nb n : ℕ)
    (h : checkEarlyTarget flags nb n = false) :
    ∀ i, i < min nb n → flags.getD i 0 ≠ 1 := by
  intro i hi
  rw [checkEarlyTarget, List.any_eq_false] at h
  have h2 := h i (List.mem_range.mpr hi)
  simpa using h2

theorem getD_default_eq {α : Type} (l : List α) (j : ℕ) (d1 d2 : α)
    (h : j < l.length) : l.getD j d1 = l.getD j d2 := by
  rw [List.getD_eq_getElem l d1 h, List.getD_eq_getElem l d2 h]

theorem lureFail_nm1 (seq : List Char) (flags : List ℕ) (lures : List String)
    (nb i : ℕ) (h : lureFailAt seq flags lures nb i = none)
    (hl : lures.getD i "none" = "n-1") :
    1 < nb ∧ nb - 1 ≤ i ∧ seq.getD i ' ' = seq.getD (i - (nb - 1)) ' ' ∧
    (nb ≤ i → seq.getD i ' ' ≠ seq.getD (i - nb) ' ') := by
  unfold lureFailAt at h
  dsimp only at h
  rw [hl] at h
  rw [if_pos rfl] at h
  by_cases c1 : ¬ (nb - 1 ≤ i ∧ 0 < nb - 1)
  · rw [if_pos c1] at h
    exact absurd h (by simp)
  · rw [if_neg c1] at h
    have c1' := not_not.mp c1
    by_cases c2 : flags.getD i 0 = 1
    · rw [if_pos c2] at h
      exact absurd h (by simp)
    · rw [if_neg c2] at h
      by_cases c3 : ¬ (seq.getD i ' ' = seq.getD (i - (nb - 1)) ' ')
      · rw [if_pos c3] at h
        exact absurd h (by simp)
      · rw [if_neg c3] at h
        have c3' := not_not.mp c3
        by_cases c4 : nb ≤ i ∧ seq.getD i ' ' = seq.getD (i - nb) ' '
        · rw [if_pos c4] at h
          exact absurd h (by simp)
        · exact ⟨by omega, c1'.1, c3', fun hni hcon => c4 ⟨hni, hcon⟩⟩

theorem lureFail_np1 (seq : List Char) (flags : List ℕ) (lures : List String)
    (nb i : ℕ) (h : lureFailAt seq flags lures nb i = none)
    (hl : lures.getD i "none" = "n+1") :
    nb + 1 ≤ i ∧ seq.getD i ' ' = seq.getD (i - (nb + 1)) ' ' ∧
    (nb ≤ i → seq.getD i ' ' ≠ seq.getD (i - nb) ' ') := by
  unfold lureFailAt at h
  dsimp only at h
  rw [hl] at h
  rw [if_neg (by decide), if_pos rfl] at h
  by_cases c1 : ¬ (nb + 1 ≤ i)
  · rw [if_pos c1] at h
    exact absurd h (by simp)
  · rw [if_neg c1] at h
    have c1' := not_not.mp c1
    by_cases c2 : flags.getD i 0 = 1
    · rw [if_pos c2] at h
      exact absurd h (by simp)
    · rw [if_neg c2] at h
      by_cases c3 : ¬ (seq.getD i ' ' = seq.getD (i - (nb + 1)) ' ')
      · rw [if_pos c3] at h
        exact absurd h (by simp)
      · rw [if_neg c3] at h
        have c3' := not_not.mp c3
        by_cases c4 : nb ≤ i ∧ seq.getD i ' ' = seq.getD (i - nb) ' '
        · rw [if_pos c4] at h
          exact absurd h (by simp)
        · exact ⟨c1', c3', fun hni hcon => c4 ⟨hni, hcon⟩⟩

/-
Claim C7: the scanning loop of `_choose_letter` against the cumulative-sum
chooser, and the soft-balance weight formula. The scan with running
accumulator equals the first-cumulative-weight-reaching-the-draw rule, and
the draw always lands (weights are at least 1 and the draw is strictly
below the total), so the source chooser equals the amended description.
-/

theorem sum_ge_length_int (ws : List ℤ) (h : ∀ w ∈ ws, 1 ≤ w) :
    (ws.length : ℤ) ≤ ws.sum := by
  induction ws with
  | nil => simp
  | cons a t ih =>
    rw [List.sum_cons, List.length_cons]
    have h1 := h a (by simp)
    have h2 := ih (fun w hw => h w (List.mem_cons_of_mem a hw))
    push_cast
    omega

theorem chooseScan_find (cands : List Char) : ∀ (ws : List ℤ) (r : ℚ) (a : ℤ),
    chooseScan (cands.zip ws) r (a : ℚ) =
      ((cands.zip ((ws.scanl (· + ·) a).tail)).find?
        (fun p => r ≤ ((p.2 : ℤ) : ℚ))).map Prod.fst := by
  induction cands with
  | nil =>
    intro ws r a
    simp [chooseScan]
  | cons c cs ih =>
    intro ws r a
    cases ws with
    | nil => simp [chooseScan]
    | cons w ws2 =>
      have hscan : ((w :: ws2).scanl (· + ·) a).tail =
          (a + w) :: (ws2.scanl (· + ·) (a + w)).tail := by
        cases ws2 <;> simp [List.scanl]
      rw [List.zip_cons_cons, hscan, List.zip_cons_cons]
      simp only [chooseScan]
      by_cases hr : r ≤ (a : ℚ) + (w : ℚ)
      · rw [if_pos hr, List.find?_cons_of_pos]
        · simp
        · simp only [decide_eq_true_eq]
          push_cast
          exact hr
      · rw [if_neg hr, List.find?_cons_of_neg]
        · have h2 := ih ws2 r (a + w)
          rw [Int.cast_add] at h2
          exact h2
        · simp only [decide_eq_true_eq]
          push_cast
          exact hr

theorem chooseScan_isSome (cands : List Char) : ∀ (ws : List ℤ) (r : ℚ) (a : ℤ),
    cands ≠ [] → ws.length = cands.length → (∀ w ∈ ws, 1 ≤ w) →
    r < (a : ℚ) + ((ws.sum : ℤ) : ℚ) →
    ∃ c, chooseScan (cands.zip ws) r (a : ℚ) = some c := by
  induction cands with
  | nil => intro ws r a hc; exact absurd rfl hc
  | cons c cs ih =>
    intro ws r a _ hlen hw hr
    cases ws with
    | nil => simp at hlen
    | cons w ws2 =>
      rw [List.zip_cons_cons]
      simp only [chooseScan]
      by_cases hcase : r ≤ (a : ℚ) + (w : ℚ)
      · exact ⟨c, if_pos hcase⟩
      · rw [if_neg hcase]
        cases cs with
        | nil =>
          cases ws2 with
          | cons x xs => simp at hlen
          | nil =>
            exfalso
            apply hcase
            rw [List.sum_cons, List.sum_nil] at hr
            push_cast at hr
            linarith
        | cons c2 cs2 =>
          have hr2 : r < ((a + w : ℤ) : ℚ) + ((ws2.sum : ℤ) : ℚ) := by
            rw [List.sum_cons] at hr
            push_cast at hr ⊢
            linarith
          have h2 := ih ws2 r (a + w) (by simp)
            (by simpa using hlen)
            (fun x hx => hw x (List.mem_cons_of_mem w hx)) hr2
          rw [Int.cast_add] at h2
          exact h2

/-- C7 (amended): for a non-empty candidate list and a uniform draw in
[0,1), the soft-balance branch of `_choose_letter` assigns each candidate
`c` the weight `max(maxFreq - freq(c) + 1, 1)` where `maxFreq` is the
highest value in the WHOLE frequency map (not the highest among the
candidates, as the specification says), draws `u * total` over the
cumulative weight sum, and returns the first candidate whose cumulative
weight reaches or exceeds the draw. -/
theorem soft_balance_amended_eq (o : Oracle) (k : ℕ) (cands : List Char)
    (freq : Freq) (hc : cands ≠ []) (h0 : 0 ≤ o.rand k) (h1 : o.rand k < 1) :
    some (_choose_letter o k cands freq true).1 =
      chooseLetterAmended (o.rand k) cands freq := by
  unfold _choose_letter chooseLetterAmended
  rw [if_neg hc]
  rw [if_pos rfl]
  dsimp only
  rw [List.map_map]
  rw [show ((fun w : ℤ => max w 1) ∘ fun c =>
      (((if freq = ([] : Freq) then 1 else dictMaxValue freq : ℕ) : ℤ) -
        (dictGet freq c 0 : ℤ) + 1)) = (fun c =>
      max (((if freq = ([] : Freq) then 1 else dictMaxValue freq : ℕ) : ℤ) -
        (dictGet freq c 0 : ℤ) + 1) 1) from rfl]
  have hw1 : ∀ w ∈ cands.map (fun c =>
      max (((if freq = ([] : Freq) then 1 else dictMaxValue freq : ℕ) : ℤ) -
        (dictGet freq c 0 : ℤ) + 1) 1), 1 ≤ w := by
    intro w hw
    obtain ⟨c, _, hcw⟩ := List.mem_map.mp hw
    rw [← hcw]
    exact le_max_right _ 1
  have hlen : (cands.map (fun c =>
      max (((if freq = ([] : Freq) then 1 else dictMaxValue freq : ℕ) : ℤ) -
        (dictGet freq c 0 : ℤ) + 1) 1)).length = cands.length := by
    simp
  have hsum1 : (1 : ℤ) ≤ (cands.map (fun c =>
      max (((if freq = ([] : Freq) then 1 else dictMaxValue freq : ℕ) : ℤ) -
        (dictGet freq c 0 : ℤ) + 1) 1)).sum := by
    have h2 := sum_ge_length_int _ hw1
    rw [hlen] at h2
    have h3 : 0 < cands.length := List.length_pos.mpr hc
    omega
  have hr : o.rand k * (((cands.map (fun c =>
      max (((if freq = ([] : Freq) then 1 else dictMaxValue freq : ℕ) : ℤ) -
        (dictGet freq c 0 : ℤ) + 1) 1)).sum : ℤ) : ℚ) <
      ((0 : ℤ) : ℚ) + (((cands.map (fun c =>
      max (((if freq = ([] : Freq) then 1 else dictMaxValue freq : ℕ) : ℤ) -
        (dictGet freq c 0 : ℤ) + 1) 1)).sum : ℤ) : ℚ) := by
    have hS : (0 : ℚ) < (((cands.map (fun c =>
        max (((if freq = ([] : Freq) then 1 else dictMaxValue freq : ℕ) : ℤ) -
          (dictGet freq c 0 : ℤ) + 1) 1)).sum : ℤ) : ℚ) := by
      have h5 : (0 : ℤ) < (cands.map (fun c =>
          max (((if freq = ([] : Freq) then 1 else dictMaxValue freq : ℕ) : ℤ) -
            (dictGet freq c 0 : ℤ) + 1) 1)).sum := by omega
      exact_mod_cast h5
    have h4 := mul_lt_mul_of_pos_right h1 hS
    rw [one_mul] at h4
    rw [Int.cast_zero, zero_add]
    exact h4
  obtain ⟨ch, hch⟩ := chooseScan_isSome cands _ _ 0 hc hlen hw1 hr
  have hfind := chooseScan_find cands (cands.map (fun c =>
      max (((if freq = ([] : Freq) then 1 else dictMaxValue freq : ℕ) : ℤ) -
        (dictGet freq c 0 : ℤ) + 1) 1))
    (o.rand k * (((cands.map (fun c =>
      max (((if freq = ([] : Freq) then 1 else dictMaxValue freq : ℕ) : ℤ) -
        (dictGet freq c 0 : ℤ) + 1) 1)).sum : ℤ) : ℚ)) 0
  rw [Int.cast_zero] at hch hfind
  simp only [cumWeights]
  rw [← hfind, hch]
  simp

/-
The claim theorems: each one settles one claim about `generate_sequence`
or the trial scoring of `run_block`.
-/

unseal Rat.add Rat.mul Rat.sub Rat.inv in
/-- C1: the claim says `is_target = 1` holds iff the stimulus equals the
stimulus `n_back` positions earlier, but the final run-limit adjustment of
`generate_sequence` (sequences.py lines 256-266) re-selects the letter at a
target position after the flag is set, and `validate_sequence` never
rechecks the match. With `n_back = 1`, 2 trials, rate ½, identical-run cap
1 and a zero-draw random source, the accepted sequence's plan 1 keeps
`is_target = 1` while its stimulus differs from plan 0's. -/
theorem target_flag_without_matching_stimulus :
    ((generate_sequence oZero 1 2 c1cfg).getD 1 defaultPlan).is_target = 1 ∧
    ((generate_sequence oZero 1 2 c1cfg).getD 1 defaultPlan).stimulus ≠
      ((generate_sequence oZero 1 2 c1cfg).getD 0 defaultPlan).stimulus := by
  decide

/-- C2 (amended): the target count of a sequence from the validated primary
loop lies within ±1 of `round(target_rate * n_trials)`; for every sequence
(fallback included) only the upper bound holds — the fallback can
undershoot by more than one. -/
theorem target_count_within_tolerance (o : Oracle) (nb nt : ℕ) (cfg : SeqConfig)
    (hWF : o.WF) (hnb : 1 ≤ nb) (hr0 : 0 ≤ cfg.target_rate)
    (hr1 : cfg.target_rate ≤ 1) (hmc : 1 ≤ cfg.max_consec_targets)
    (hmir : 1 ≤ cfg.max_identical_run) :
    ((primaryLoop o nb nt cfg (pyRound (cfg.target_rate * (nt : ℚ))) 0
        cfg.max_attempts).1 = some (generate_sequence o nb nt cfg) →
      pyRound (cfg.target_rate * (nt : ℚ)) - 1 ≤
        (targetCount (generate_sequence o nb nt cfg) : ℤ)) ∧
    (targetCount (generate_sequence o nb nt cfg) : ℤ) ≤
      pyRound (cfg.target_rate * (nt : ℚ)) + 1 := by
  have hD : 0 ≤ pyRound (cfg.target_rate * (nt : ℚ)) :=
    pyRound_nonneg _ (mul_nonneg hr0 (by positivity))
  constructor
  · intro hp
    obtain ⟨seq, flags, lures, hsl, hfl, hll, _, hfv, _, hval, hps⟩ :=
      primary_some_master o nb nt cfg _ 0 cfg.max_attempts _ hWF.2.2 hp
    obtain ⟨_, ⟨hlow, hhigh⟩, _, _⟩ :=
      validate_ok_parts seq flags lures nb cfg.target_rate 1
        cfg.max_consec_targets hval
    have hcount : targetCount (generate_sequence o nb nt cfg) = flags.sum := by
      rw [hps, targetCount_eq_countP_flags seq flags lures _ nt hfl,
        countP_ones_eq_sum flags hfv]
    rw [hsl] at hlow
    omega
  · rcases generate_sequence_cases o nb nt cfg with hp | ⟨k2, hf⟩
    · obtain ⟨seq, flags, lures, hsl, hfl, hll, _, hfv, _, hval, hps⟩ :=
        primary_some_master o nb nt cfg _ 0 cfg.max_attempts _ hWF.2.2 hp
      obtain ⟨_, ⟨hlow, hhigh⟩, _, _⟩ :=
        validate_ok_parts seq flags lures nb cfg.target_rate 1
          cfg.max_consec_targets hval
      have hcount : targetCount (generate_sequence o nb nt cfg) = flags.sum := by
        rw [hps, targetCount_eq_countP_flags seq flags lures _ nt hfl,
          countP_ones_eq_sum flags hfv]
      rw [hsl] at hhigh
      omega
    · obtain ⟨_, _, _, hsum, _, _⟩ :=
        fallback_master o nb nt cfg (pyRound (cfg.target_rate * (nt : ℚ))) k2 hWF.2.2 hWF.2.1
      rw [← hf] at hsum
      omega

unseal Rat.add Rat.mul Rat.sub Rat.inv in
theorem target_count_within_tolerance_cex :
    ¬ (pyRound (c2cfg.target_rate * (3 : ℚ)) - 1 ≤
        (targetCount (generate_sequence oZero 2 3 c2cfg) : ℤ) ∧
       (targetCount (generate_sequence oZero 2 3 c2cfg) : ℤ) ≤
        pyRound (c2cfg.target_rate * (3 : ℚ)) + 1) := by
  decide

unseal Rat.add Rat.mul Rat.sub Rat.inv in
theorem target_count_within_tolerance_check :
    ((0 : ℚ) ≤ c1cfg.target_rate ∧ c1cfg.target_rate ≤ 1) ∧
    (((primaryLoop oZero 1 2 c1cfg (pyRound (c1cfg.target_rate * (2 : ℚ))) 0
        c1cfg.max_attempts).1 = some (generate_sequence oZero 1 2 c1cfg) →
      pyRound (c1cfg.target_rate * (2 : ℚ)) - 1 ≤
        (targetCount (generate_sequence oZero 1 2 c1cfg) : ℤ)) ∧
      (targetCount (generate_sequence oZero 1 2 c1cfg) : ℤ) ≤
        pyRound (c1cfg.target_rate * (2 : ℚ)) + 1) :=
  ⟨⟨by decide, by decide⟩,
   target_count_within_tolerance oZero 1 2 c1cfg oZero_wf (by decide)
     (by decide) (by decide) (by decide) (by decide)⟩

/-- C3 (amended): no run of consecutive targets exceeds
`max_consec_targets` in a sequence from the validated primary loop, and on
the fallback path when `max_consec_targets = 1`; the fallback's scatter
pass only checks immediate neighbours, so with a cap of 2 or more, longer
runs can appear there. -/
theorem no_overlong_target_runs (o : Oracle) (nb nt : ℕ) (cfg : SeqConfig)
    (hWF : o.WF) :
    ((primaryLoop o nb nt cfg (pyRound (cfg.target_rate * (nt : ℚ))) 0
        cfg.max_attempts).1 = some (generate_sequence o nb nt cfg) →
      ¬ hasTargetRun ((generate_sequence o nb nt cfg).map TrialPlan.is_target)
        (cfg.max_consec_targets + 1)) ∧
    (cfg.max_consec_targets = 1 →
      ¬ hasTargetRun ((generate_sequence o nb nt cfg).map TrialPlan.is_target) 2) := by
  have hprim : (primaryLoop o nb nt cfg (pyRound (cfg.target_rate * (nt : ℚ))) 0
      cfg.max_attempts).1 = some (generate_sequence o nb nt cfg) →
      ¬ hasTargetRun ((generate_sequence o nb nt cfg).map TrialPlan.is_target)
        (cfg.max_consec_targets + 1) := by
    intro hp
    obtain ⟨seq, flags, lures, hsl, hfl, _, _, _, _, hval, hps⟩ :=
      primary_some_master o nb nt cfg _ 0 cfg.max_attempts _ hWF.2.2 hp
    obtain ⟨_, _, _, hconsec⟩ :=
      validate_ok_parts seq flags lures nb cfg.target_rate 1
        cfg.max_consec_targets hval
    rw [hps, mkPlans_map_is_target seq flags lures _ nt hfl]
    exact consecGo_no_run flags _ hconsec
  refine ⟨hprim, fun hmc1 => ?_⟩
  rcases generate_sequence_cases o nb nt cfg with hp | ⟨k2, hf⟩
  · simpa [hmc1] using hprim hp
  · rw [hf]
    exact (fallback_master o nb nt cfg (pyRound (cfg.target_rate * (nt : ℚ))) k2 hWF.2.2 hWF.2.1).2.2.2.2.2 hmc1

unseal Rat.add Rat.mul Rat.sub Rat.inv in
theorem no_overlong_target_runs_cex :
    c3cfg.max_consec_targets = 2 ∧
    hasTargetRun ((generate_sequence oZero 1 4 c3cfg).map TrialPlan.is_target)
      (c3cfg.max_consec_targets + 1) := by
  refine ⟨by decide, ⟨[0], [], ?_⟩⟩
  decide

unseal Rat.add Rat.mul Rat.sub Rat.inv in
theorem no_overlong_target_runs_check :
    oZero.WF ∧
    (((primaryLoop oZero 1 2 c1cfg (pyRound (c1cfg.target_rate * (2 : ℚ))) 0
        c1cfg.max_attempts).1 = some (generate_sequence oZero 1 2 c1cfg) →
      ¬ hasTargetRun ((generate_sequence oZero 1 2 c1cfg).map TrialPlan.is_target)
        (c1cfg.max_consec_targets + 1)) ∧
    (c1cfg.max_consec_targets = 1 →
      ¬ hasTargetRun ((generate_sequence oZero 1 2 c1cfg).map TrialPlan.is_target) 2)) :=
  ⟨oZero_wf, no_overlong_target_runs oZero 1 2 c1cfg oZero_wf⟩

/-- C4: in every sequence `generate_sequence` returns (primary or fallback
path), no plan at an index below `n_back` carries a target flag. -/
theorem no_targets_before_nback (o : Oracle) (nb nt : ℕ) (cfg : SeqConfig)
    (hWF : o.WF) (hnb : 1 ≤ nb) :
    ∀ i, i < nb →
      ((generate_sequence o nb nt cfg).getD i defaultPlan).is_target ≠ 1 := by
  intro i hi
  rcases generate_sequence_cases o nb nt cfg with hp | ⟨k2, hf⟩
  · obtain ⟨seq, flags, lures, hsl, hfl, _, _, _, _, hval, hps⟩ :=
      primary_some_master o nb nt cfg _ 0 cfg.max_attempts _ hWF.2.2 hp
    obtain ⟨hearly, _, _, _⟩ :=
      validate_ok_parts seq flags lures nb cfg.target_rate 1
        cfg.max_consec_targets hval
    rw [hps]
    by_cases hlt : i < nt
    · rw [mkPlans_getD seq flags lures cfg.fixed_iti_ms nt i hlt]
      exact checkEarly_false flags nb seq.length hearly i (by omega)
    · have hdef : (mkPlans seq flags lures cfg.fixed_iti_ms nt).getD i defaultPlan
          = defaultPlan :=
        List.getD_eq_default _ _ (by rw [mkPlans_length]; omega)
      rw [hdef]
      decide
  · rw [hf]
    have h5 := (fallback_master o nb nt cfg (pyRound (cfg.target_rate * (nt : ℚ))) k2 hWF.2.2 hWF.2.1).2.2.2.2.1 i hi
    omega

unseal Rat.add Rat.mul Rat.sub Rat.inv in
theorem no_targets_before_nback_check :
    oZero.WF ∧ (0 : ℕ) < 1 ∧
    ((generate_sequence oZero 1 1 c10cfg).getD 0 defaultPlan).is_target ≠ 1 :=
  ⟨oZero_wf, by decide,
   no_targets_before_nback oZero 1 1 c10cfg oZero_wf (by decide) 0 (by decide)⟩

/-- C5: in every sequence `generate_sequence` returns, a plan marked with
lure type "n-1" sits at a position `i ≥ n_back - 1` with `n_back > 1`, its
stimulus equals the stimulus `n_back - 1` back, and differs from the
stimulus `n_back` back when `i ≥ n_back`; a plan marked "n+1" sits at
`i ≥ n_back + 1`, matches the stimulus `n_back + 1` back, and differs from
the stimulus `n_back` back when `i ≥ n_back`. -/
theorem lure_positions_sound (o : Oracle) (nb nt : ℕ) (cfg : SeqConfig)
    (hWF : o.WF) : ∀ i,
    (((generate_sequence o nb nt cfg).getD i defaultPlan).lure_type = "n-1" →
      1 < nb ∧ nb - 1 ≤ i ∧
      ((generate_sequence o nb nt cfg).getD i defaultPlan).stimulus =
        ((generate_sequence o nb nt cfg).getD (i - (nb - 1)) defaultPlan).stimulus ∧
      (nb ≤ i →
        ((generate_sequence o nb nt cfg).getD i defaultPlan).stimulus ≠
          ((generate_sequence o nb nt cfg).getD (i - nb) defaultPlan).stimulus)) ∧
    (((generate_sequence o nb nt cfg).getD i defaultPlan).lure_type = "n+1" →
      nb + 1 ≤ i ∧
      ((generate_sequence o nb nt cfg).getD i defaultPlan).stimulus =
        ((generate_sequence o nb nt cfg).getD (i - (nb + 1)) defaultPlan).stimulus ∧
      (nb ≤ i →
        ((generate_sequence o nb nt cfg).getD i defaultPlan).stimulus ≠
          ((generate_sequence o nb nt cfg).getD (i - nb) defaultPlan).stimulus)) := by
  intro i
  rcases generate_sequence_cases o nb nt cfg with hp | ⟨k2, hf⟩
  · obtain ⟨seq, flags, lures, hsl, hfl, hll, _, _, _, hval, hps⟩ :=
      primary_some_master o nb nt cfg _ 0 cfg.max_attempts _ hWF.2.2 hp
    obtain ⟨_, _, hlurefail, _⟩ :=
      validate_ok_parts seq flags lures nb cfg.target_rate 1
        cfg.max_consec_targets hval
    by_cases hlt : i < nt
    · rw [hps, mkPlans_getD seq flags lures cfg.fixed_iti_ms nt i hlt,
        mkPlans_getD seq flags lures cfg.fixed_iti_ms nt (i - (nb - 1)) (by omega),
        mkPlans_getD seq flags lures cfg.fixed_iti_ms nt (i - (nb + 1)) (by omega),
        mkPlans_getD seq flags lures cfg.fixed_iti_ms nt (i - nb) (by omega)]
      dsimp only
      constructor
      · intro hl1
        have hfail := hlurefail i (List.mem_range.mpr (by omega))
        obtain ⟨hnb1, hge, heq, hne⟩ := lureFail_nm1 seq flags lures nb i hfail hl1
        refine ⟨hnb1, hge, ?_, ?_⟩
        · rw [getD_default_eq seq i 'A' ' ' (by omega),
            getD_default_eq seq (i - (nb - 1)) 'A' ' ' (by omega)]
          exact heq
        · intro hni hcon
          apply hne hni
          rw [getD_default_eq seq i ' ' 'A' (by omega),
            getD_default_eq seq (i - nb) ' ' 'A' (by omega)]
          exact hcon
      · intro hl1
        have hfail := hlurefail i (List.mem_range.mpr (by omega))
        obtain ⟨hge, heq, hne⟩ := lureFail_np1 seq flags lures nb i hfail hl1
        refine ⟨hge, ?_, ?_⟩
        · rw [getD_default_eq seq i 'A' ' ' (by omega),
            getD_default_eq seq (i - (nb + 1)) 'A' ' ' (by omega)]
          exact heq
        · intro hni hcon
          apply hne hni
          rw [getD_default_eq seq i ' ' 'A' (by omega),
            getD_default_eq seq (i - nb) ' ' 'A' (by omega)]
          exact hcon
    · have hdef : (mkPlans seq flags lures cfg.fixed_iti_ms nt).getD i defaultPlan
          = defaultPlan :=
        List.getD_eq_default _ _ (by rw [mkPlans_length]; omega)
      rw [hps, hdef]
      constructor <;> intro hcon <;> exact absurd hcon (by decide)
  · have hl := (fallback_master o nb nt cfg (pyRound (cfg.target_rate * (nt : ℚ))) k2 hWF.2.2 hWF.2.1).2.2.1 i
    rw [← hf] at hl
    constructor <;> intro hcon <;> rw [hl] at hcon <;>
      exact absurd hcon (by decide)

unseal Rat.add Rat.mul Rat.sub Rat.inv in
theorem lure_positions_sound_check :
    ((generate_sequence oZero 2 2 c5cfg).getD 1 defaultPlan).lure_type = "n-1" ∧
    ((((generate_sequence oZero 2 2 c5cfg).getD 1 defaultPlan).lure_type = "n-1" →
      1 < 2 ∧ 2 - 1 ≤ 1 ∧
      ((generate_sequence oZero 2 2 c5cfg).getD 1 defaultPlan).stimulus =
        ((generate_sequence oZero 2 2 c5cfg).getD (1 - (2 - 1)) defaultPlan).stimulus ∧
      (2 ≤ 1 →
        ((generate_sequence oZero 2 2 c5cfg).getD 1 defaultPlan).stimulus ≠
          ((generate_sequence oZero 2 2 c5cfg).getD (1 - 2) defaultPlan).stimulus)) ∧
    (((generate_sequence oZero 2 2 c5cfg).getD 1 defaultPlan).lure_type = "n+1" →
      2 + 1 ≤ 1 ∧
      ((generate_sequence oZero 2 2 c5cfg).getD 1 defaultPlan).stimulus =
        ((generate_sequence oZero 2 2 c5cfg).getD (1 - (2 + 1)) defaultPlan).stimulus ∧
      (2 ≤ 1 →
        ((generate_sequence oZero 2 2 c5cfg).getD 1 defaultPlan).stimulus ≠
          ((generate_sequence oZero 2 2 c5cfg).getD (1 - 2) defaultPlan).stimulus))) :=
  ⟨by decide, lure_positions_sound oZero 2 2 c5cfg oZero_wf 1⟩

/-- C6: `generate_sequence` is a total function that always returns exactly
`n_trials` plans, and with `max_attempts = 0` it is exactly the fallback
path — the embedding of lines 197-357 needs no error case. -/
theorem fallback_always_full_length (o : Oracle) (nb nt : ℕ) (cfg : SeqConfig) :
    (generate_sequence o nb nt cfg).length = nt ∧
    (cfg.max_attempts = 0 →
      generate_sequence o nb nt cfg =
        fallbackSeq o nb nt cfg (pyRound (cfg.target_rate * (nt : ℚ))) 0) := by
  refine ⟨generate_sequence_length o nb nt cfg, fun h0 => ?_⟩
  unfold generate_sequence
  dsimp only
  rw [h0]
  rfl

/-- C9: `generate_sequence` is a pure function of the random source and the
configuration: two calls with equal sources and equal arguments return
equal plan lists, field by field at every position. -/
theorem generator_is_deterministic (o1 o2 : Oracle) (nb nt : ℕ)
    (cfg : SeqConfig) (h : o1 = o2) :
    generate_sequence o1 nb nt cfg = generate_sequence o2 nb nt cfg ∧
    ∀ i, ((generate_sequence o1 nb nt cfg).getD i defaultPlan).stimulus =
          ((generate_sequence o2 nb nt cfg).getD i defaultPlan).stimulus ∧
        ((generate_sequence o1 nb nt cfg).getD i defaultPlan).is_target =
          ((generate_sequence o2 nb nt cfg).getD i defaultPlan).is_target ∧
        ((generate_sequence o1 nb nt cfg).getD i defaultPlan).lure_type =
          ((generate_sequence o2 nb nt cfg).getD i defaultPlan).lure_type ∧
        ((generate_sequence o1 nb nt cfg).getD i defaultPlan).iti_ms =
          ((generate_sequence o2 nb nt cfg).getD i defaultPlan).iti_ms := by
  subst h
  exact ⟨rfl, fun i => ⟨rfl, rfl, rfl, rfl⟩⟩

theorem generator_is_deterministic_check :
    generate_sequence oZero 1 1 c10cfg = generate_sequence oZero 1 1 c10cfg ∧
    ∀ i, ((generate_sequence oZero 1 1 c10cfg).getD i defaultPlan).stimulus =
          ((generate_sequence oZero 1 1 c10cfg).getD i defaultPlan).stimulus ∧
        ((generate_sequence oZero 1 1 c10cfg).getD i defaultPlan).is_target =
          ((generate_sequence oZero 1 1 c10cfg).getD i defaultPlan).is_target ∧
        ((generate_sequence oZero 1 1 c10cfg).getD i defaultPlan).lure_type =
          ((generate_sequence oZero 1 1 c10cfg).getD i defaultPlan).lure_type ∧
        ((generate_sequence oZero 1 1 c10cfg).getD i defaultPlan).iti_ms =
          ((generate_sequence oZero 1 1 c10cfg).getD i defaultPlan).iti_ms :=
  generator_is_deterministic oZero oZero 1 1 c10cfg rfl

/-- C10: every plan of every returned sequence carries a stimulus from the
23-letter alphabet, a target flag that is 0 or 1, and a lure type among
"none", "n-1", "n+1" (out-of-range reads return the default plan, which
also satisfies all three). -/
theorem plan_fields_in_range (o : Oracle) (nb nt : ℕ) (cfg : SeqConfig)
    (hWF : o.WF) : ∀ i,
    ((generate_sequence o nb nt cfg).getD i defaultPlan).stimulus ∈ LETTERS ∧
    (((generate_sequence o nb nt cfg).getD i defaultPlan).is_target = 0 ∨
      ((generate_sequence o nb nt cfg).getD i defaultPlan).is_target = 1) ∧
    (((generate_sequence o nb nt cfg).getD i defaultPlan).lure_type = "none" ∨
      ((generate_sequence o nb nt cfg).getD i defaultPlan).lure_type = "n-1" ∨
      ((generate_sequence o nb nt cfg).getD i defaultPlan).lure_type = "n+1") := by
  intro i
  rcases generate_sequence_cases o nb nt cfg with hp | ⟨k2, hf⟩
  · obtain ⟨seq, flags, lures, hsl, hfl, hll, hsv, hfv, hlv, _, hps⟩ :=
      primary_some_master o nb nt cfg _ 0 cfg.max_attempts _ hWF.2.2 hp
    rw [hps]
    by_cases hlt : i < nt
    · rw [mkPlans_getD seq flags lures cfg.fixed_iti_ms nt i hlt]
      dsimp only
      refine ⟨?_, ?_, ?_⟩
      · rcases getD_mem_or seq i 'A' with hm | he
        · exact hsv _ hm
        · rw [he]
          exact a_mem_letters
      · rcases getD_mem_or flags i 0 with hm | he
        · exact hfv _ hm
        · rw [he]
          exact Or.inl rfl
      · rcases getD_mem_or lures i "none" with hm | he
        · exact hlv _ hm
        · rw [he]
          exact Or.inl rfl
    · have hdef : (mkPlans seq flags lures cfg.fixed_iti_ms nt).getD i defaultPlan
          = defaultPlan :=
        List.getD_eq_default _ _ (by rw [mkPlans_length]; omega)
      rw [hdef]
      exact ⟨a_mem_letters, Or.inl rfl, Or.inl rfl⟩
  · rw [hf]
    obtain ⟨h1, h2, h3, _, _, _⟩ :=
      fallback_master o nb nt cfg (pyRound (cfg.target_rate * (nt : ℚ))) k2 hWF.2.2 hWF.2.1
    exact ⟨h1 i, h2 i, Or.inl (h3 i)⟩

unseal Rat.add Rat.mul Rat.sub Rat.inv in
theorem plan_fields_in_range_check :
    ((generate_sequence oZero 1 1 c10cfg).getD 0 defaultPlan).stimulus ∈ LETTERS ∧
    (((generate_sequence oZero 1 1 c10cfg).getD 0 defaultPlan).is_target = 0 ∨
      ((generate_sequence oZero 1 1 c10cfg).getD 0 defaultPlan).is_target = 1) ∧
    (((generate_sequence oZero 1 1 c10cfg).getD 0 defaultPlan).lure_type = "none" ∨
      ((generate_sequence oZero 1 1 c10cfg).getD 0 defaultPlan).lure_type = "n-1" ∨
      ((generate_sequence oZero 1 1 c10cfg).getD 0 defaultPlan).lure_type = "n+1") :=
  plan_fields_in_range oZero 1 1 c10cfg oZero_wf 0

unseal Rat.add Rat.mul Rat.sub Rat.inv in
theorem soft_balance_claim_mismatch :
    ((0 : ℚ) ≤ oC7.rand 0 ∧ oC7.rand 0 < 1) ∧
    chooseLetterClaim (oC7.rand 0) ['A', 'B'] [('A', 0), ('B', 1), ('C', 5)] ≠
      some (_choose_letter oC7 0 ['A', 'B'] [('A', 0), ('B', 1), ('C', 5)] true).1 :=
  ⟨⟨by decide, by decide⟩, by decide⟩

unseal Rat.add Rat.mul Rat.sub Rat.inv in
theorem soft_balance_amended_eq_check :
    (['A'] ≠ ([] : List Char) ∧ (0 : ℚ) ≤ oZero.rand 0 ∧ oZero.rand 0 < 1) ∧
    some (_choose_letter oZero 0 ['A'] [] true).1 =
      chooseLetterAmended (oZero.rand 0) ['A'] [] :=
  ⟨⟨by decide, by decide, by decide⟩,
   soft_balance_amended_eq oZero 0 ['A'] [] (by decide) (by decide) (by decide)⟩

theorem run_trial_correct_iff_check :
    run_trial defaultPlan [[Key.response]] =
      some ⟨some Key.response, 0⟩ ∧
    ((⟨some Key.response, 0⟩ : TrialRecord).correct = 1 ↔
      ((defaultPlan.is_target = 1 ∧
          (⟨some Key.response, 0⟩ : TrialRecord).resp_key ≠ none) ∨
       (defaultPlan.is_target = 0 ∧
          (⟨some Key.response, 0⟩ : TrialRecord).resp_key = none))) :=
  ⟨by decide,
   run_trial_correct_iff defaultPlan [[Key.response]] ⟨some Key.response, 0⟩
     (by decide)⟩
